import Mathlib

/-!
# Verification of the regular-expression / finite-automata pipeline

This file gives a shallow embedding, in Lean 4, of the core algorithms of the
formal-languages TypeScript repository (Chapter-04-05): the algebraic
term-rewriting simplifier (`Rewrite.ts`), the recursive-descent parser
(`RegExp-Parser.ts`), the Thompson construction (`03-RegExp-2-NFA.ts`), the
subset construction (`01-NFA-2-DFA.ts`), the DFA minimizer (`07-Minimize.ts`),
the state-elimination decompiler (`05-DFA-2-RegExp.ts`) and the equivalence
checker (`09-Equivalence.ts`), together with theorems about them.

Conventions used throughout the embedding:

* JavaScript `Set`s of primitives and `RecursiveSet`s are embedded as Lean
  `List`s; insertion mirrors the source (`Set.add` deduplicates primitive
  values, adding at the end; `Set`s of objects never deduplicate, and the
  membership tests the source performs are structural scans, which the list
  embedding reproduces).  List order models the deterministic iteration order
  of the source containers.
* JavaScript `Map`s are embedded as association lists with first-match lookup
  and overwrite-on-set, mirroring `Map.get` / `Map.set`.  The string keys
  `"q,c"` and `JSON.stringify` keys of the source are injective renderings of
  pairs, embedded directly as pairs.
* `while (true)` fixed-point loops are embedded as fuel-indexed recursions
  returning `Option` (`none` means the fuel ran out before the fixed point,
  which never happens for the fuel bounds proved or supplied below); a loop
  that is bounded by an explicit iteration cap in the source (the rewriter)
  is embedded with exactly that cap.
* Thrown errors become `Except`/`Option` results.
-/

namespace FL

/-! ## Association lists (JavaScript `Map`) -/

/-- `Map.get`: first matching key. -/
def alGet {κ α : Type} [DecidableEq κ] : List (κ × α) → κ → Option α
  | [], _ => none
  | (k, v) :: t, k₀ => if k = k₀ then some v else alGet t k₀

/-- `Map.set`: overwrite the first matching key in place, else append. -/
def alSet {κ α : Type} [DecidableEq κ] : List (κ × α) → κ → α → List (κ × α)
  | [], k₀, v₀ => [(k₀, v₀)]
  | (k, v) :: t, k₀, v₀ =>
    if k = k₀ then (k, v₀) :: t else (k, v) :: alSet t k₀ v₀

/-! ## Sorted sets of naturals (`RecursiveSet<State>`)

`RecursiveSet` stores its elements sorted and deduplicated, and compares by
content; sorted duplicate-free lists of naturals give the same structure, with
list equality as content equality. -/

/-- Insert into a sorted duplicate-free list, keeping it sorted. -/
def sInsert (x : Nat) : List Nat → List Nat
  | [] => [x]
  | y :: t =>
    if x < y then x :: y :: t
    else if x = y then y :: t
    else y :: sInsert x t

/-- Set union (`RecursiveSet.union`). -/
def sUnion (a b : List Nat) : List Nat := a.foldr sInsert b

/-- Subset test (`RecursiveSet.isSubset`). -/
def sSubset (a b : List Nat) : Bool := a.all (fun x => b.contains x)

/-- Intersection (`RecursiveSet.intersection`). -/
def sInter (a b : List Nat) : List Nat := a.filter (fun x => b.contains x)

/-! ## The term rewriter (`Rewrite.ts`)

The rewriter works on `MyRegExp = number | string | Tuple<[MyRegExp,'*']> |
Tuple<[MyRegExp,'⋅'|'+',MyRegExp]>`.  Numbers and strings are atoms; a
single uppercase letter `A`–`Z` is a pattern variable; `0` is the empty set
and `"ε"` is epsilon.  Both rewriter variants in `Rewrite.ts` implement the
same rule catalogue with the same iteration cap; the embedding follows the
`MyRegExp` variant. -/

/-- `MyRegExp`: a JavaScript number, a JavaScript string, a Kleene-star
tuple, a concatenation tuple or a union tuple. -/
inductive Term : Type where
  | num (n : Nat)
  | str (s : String)
  | star (t : Term)
  | cat (l r : Term)
  | uni (l r : Term)
deriving DecidableEq, Repr

namespace Rw

/-- `isAtom`: numbers and strings. -/
def isAtom : Term → Bool
  | .num _ => true
  | .str _ => true
  | _ => false

/-- `isVariable`: a single uppercase letter `A`–`Z`. -/
def isVariable : Term → Bool
  | .str s => s.length = 1 && s.front ≥ 'A' && s.front ≤ 'Z'
  | _ => false

/-- The variable name of a `Term.str` (used only when `isVariable` holds). -/
def varName : Term → String
  | .str s => s
  | _ => ""

/-- A substitution (`Subst = Map<string, MyRegExp>`). -/
abbrev Subst : Type := List (String × Term)

/-- `deepEquals` is structural equality on `MyRegExp` (the source compares
atoms with `===` and tuples component-wise), so the embedding uses decidable
equality of `Term`.  `match(pattern, term, subst)`: a variable matches
whatever it is already bound to, or binds on first occurrence; atoms match by
equality; tuples match component-wise with the same operator, threading the
substitution left to right.  `none` models returning `false`. -/
def tmatch : Term → Term → Subst → Option Subst
  | .str a, t, σ =>
    if isVariable (.str a) then
      match alGet σ a with
      | some b => if b = t then some σ else none
      | none => some (alSet σ a t)
    else
      match t with
      | .str b => if a = b then some σ else none
      | _ => none
  | .num n, t, σ =>
    match t with
    | .num m => if n = m then some σ else none
    | _ => none
  | .star p₁, t, σ =>
    match t with
    | .star t₁ => tmatch p₁ t₁ σ
    | _ => none
  | .cat p₁ p₂, t, σ =>
    match t with
    | .cat t₁ t₂ =>
      match tmatch p₁ t₁ σ with
      | some σ₁ => tmatch p₂ t₂ σ₁
      | none => none
    | _ => none
  | .uni p₁ p₂, t, σ =>
    match t with
    | .uni t₁ t₂ =>
      match tmatch p₁ t₁ σ with
      | some σ₁ => tmatch p₂ t₂ σ₁
      | none => none
    | _ => none

/-- `apply(term, substitution)`: replace bound variables by their bindings. -/
def tapply : Term → Subst → Term
  | .str s, σ =>
    if isVariable (.str s) then
      match alGet σ s with
      | some b => b
      | none => .str s
    else .str s
  | .num n, _ => .num n
  | .star i, σ => .star (tapply i σ)
  | .cat l r, σ => .cat (tapply l σ) (tapply r σ)
  | .uni l r, σ => .uni (tapply l σ) (tapply r σ)

/-- A rewrite rule `(lhs, rhs)`. -/
abbrev Rule : Type := Term × Term

/-- `rewrite(term, rule)`: match the left-hand side against the term with a
fresh substitution; on success apply the substitution to the right-hand
side.  `none` models `{simplified: false}`. -/
def trewrite (t : Term) (r : Rule) : Option Term :=
  match tmatch r.1 t [] with
  | some σ => some (tapply r.2 σ)
  | none => none

/-- Shorthands for the terms appearing in the rule catalogue. -/
def vR : Term := .str "R"

def vS : Term := .str "S"

def vT : Term := .str "T"

def eps : Term := .str "ε"

def zero : Term := .num 0

/-- `getRules()`: the 26 rules, in source order. -/
def rules : List Rule :=
  [ (.uni vR zero, vR),
    (.uni zero vR, vR),
    (.uni vR vR, vR),
    (.uni eps (.star vR), .star vR),
    (.uni (.star vR) eps, .star vR),
    (.uni eps (.cat vR (.star vR)), .star vR),
    (.uni eps (.cat (.star vR) vR), .star vR),
    (.uni (.cat vR (.star vR)) eps, .star vR),
    (.uni (.cat (.star vR) vR) eps, .star vR),
    (.uni vS (.cat vS vT), .cat vS (.uni eps vT)),
    (.uni vS (.cat vT vS), .cat (.uni eps vT) vS),
    (.cat zero vR, zero),
    (.cat vR zero, zero),
    (.cat eps vR, vR),
    (.cat vR eps, vR),
    (.cat (.uni eps vR) (.star vR), .star vR),
    (.cat (.uni vR eps) (.star vR), .star vR),
    (.cat (.star vR) (.uni vR eps), .star vR),
    (.cat (.star vR) (.uni eps vR), .star vR),
    (.star zero, eps),
    (.star eps, eps),
    (.star (.uni eps vR), .star vR),
    (.star (.uni vR eps), .star vR),
    (.uni vR (.uni vS vT), .uni (.uni vR vS) vT),
    (.cat vR (.cat vS vT), .cat (.cat vR vS) vT),
    (.cat (.cat vR (.star vS)) (.uni eps vS), .cat vR (.star vS)) ]

/-- The `for (const rule of rules)` loop of `simplifyOnce`: first successful
rewrite wins. -/
def firstRewrite (t : Term) : List Rule → Option Term
  | [] => none
  | r :: rs =>
    match trewrite t r with
    | some t₁ => some t₁
    | none => firstRewrite t rs

/-- `simplifyOnce`: atoms are returned unchanged; otherwise try each rule at
the root, and if none applies recurse into the children. -/
def simplifyOnce : Term → Term
  | .num n => .num n
  | .str s => .str s
  | .star i =>
    match firstRewrite (.star i) rules with
    | some t₁ => t₁
    | none => .star (simplifyOnce i)
  | .cat l r =>
    match firstRewrite (.cat l r) rules with
    | some t₁ => t₁
    | none => .cat (simplifyOnce l) (simplifyOnce r)
  | .uni l r =>
    match firstRewrite (.uni l r) rules with
    | some t₁ => t₁
    | none => .uni (simplifyOnce l) (simplifyOnce r)

/-- The `while (true)` fixed-point loop of `simplify`, with `remaining` the
number of further productive iterations the cap still allows (the source
starts with `iterations = 0` and aborts as soon as `iterations` exceeds
`MAX_ITERATIONS = 1000`, i.e. after the 1001st productive iteration).  The
second component records whether the cap was hit (the source emits
`console.warn` there). -/
def simplifyLoop : Nat → Term → Term × Bool
  | remaining, current =>
    let next := simplifyOnce current
    if current = next then (next, false)
    else
      match remaining with
      | 0 => (next, true)
      | r + 1 => simplifyLoop r next

/-- `simplify(t)`: iterate `simplifyOnce` to a fixed point, capped at 1001
productive iterations. -/
def simplify (t : Term) : Term := (simplifyLoop 1000 t).1

/-- `simplify` together with the cap warning (`console.warn`) it emits. -/
def simplifyW (t : Term) : Term × Bool := simplifyLoop 1000 t

/-- Iterating `simplifyOnce` (used to state what the fixed-point loop
computes). -/
def iterS : Nat → Term → Term
  | 0, t => t
  | k + 1, t => iterS k (simplifyOnce t)

/-- Left-nested union `(…((1+2)+3)…+(j+1))` of the atoms `1, …, j+1`. -/
def lseq : Nat → Term
  | 0 => .num 1
  | j + 1 => .uni (lseq j) (.num (j + 2))

/-- Right-nested union `s+(s+1+(…+(s+k)…))` of the atoms `s, …, s+k`. -/
def seqR (s : Nat) : Nat → Term
  | 0 => .num s
  | k + 1 => .uni (.num s) (seqR (s + 1) k)

/-- The right-nested union `1+(2+(3+(…+1004)…))` of the 1004 distinct atoms
`1, …, 1004`: rebalancing it to the left needs 1002 passes of the
associativity rule, one more than the iteration cap allows. -/
def capChain : Term := .uni (.num 1) (seqR 2 1002)

end Rw

/-! ## The regular-expression AST (`03-RegExp-2-NFA.ts`)

`RegExp = EmptySet | Epsilon | CharNode(c) | Star(r) | Concat(l,r) |
Union(l,r)` (equivalently, in the tuple encoding of the sibling variant,
`0 | 'ε' | c | (r,'*') | (l,'⋅',r) | (l,'+',r)`). -/

inductive RE : Type where
  | emptySet
  | epsilon
  | charNode (c : Char)
  | star (r : RE)
  | concat (l r : RE)
  | union (l r : RE)
deriving DecidableEq, Repr

/-! ## The recursive-descent parser (`RegExp-Parser.ts`)

Tokens are single-character strings.  The `error(msg, tokens)` helper of the
source throws `Parse Error: ${msg}. Remaining tokens: ${tokens}`; the
embedding returns the pair of a structured message and the reported token
list.  `ParseMsg.fuelOut` is an artifact of the fuel-indexed embedding of
the mutual recursion; `parse_total_or_reported` proves it is never produced
at the fuel `parse` supplies. -/

namespace Par

/-- The messages passed to `error` (plus the fuel artifact). -/
inductive ParseMsg : Type where
  | unexpectedEnd
  | expectedClose
  | unexpectedToken (t : String)
  | trailingTokens
  | fuelOut
deriving DecidableEq, Repr

/-- A parse error: the message and the reported remaining-token list. -/
abbrev PErr : Type := ParseMsg × List String

/-- A token is a letter, `+`, `*`, `(`, `)`, `∅` or `ε`; `tokenize` keeps
exactly the characters matched by `/[+*()]|[a-zA-Z]|∅|ε/g` and drops the
rest. -/
def tokenChar (c : Char) : Bool :=
  c = '+' || c = '*' || c = '(' || c = ')' || c.isAlpha || c = '∅' || c = 'ε'

/-- `tokenize(s)`. -/
def tokenize (s : String) : List String :=
  s.data.filterMap (fun c => if tokenChar c then some (String.singleton c) else none)

/-- The `isAtomStart` test of `parseProduct`: `/^[a-zA-Z(∅ε]$/`. -/
def isAtomStart (t : String) : Bool :=
  t.length = 1 && (t.front.isAlpha || t.front = '(' || t.front = '∅' || t.front = 'ε')

/-- The `/^[a-zA-Z]$/` test of `parseAtom`. -/
def isLetterTok (t : String) : Bool :=
  t.length = 1 && t.front.isAlpha

mutual

/-- `parseAtom(tokens)`. -/
def parseAtomF : Nat → List String → Except PErr (RE × List String)
  | 0, toks => .error (.fuelOut, toks)
  | _ + 1, [] => .error (.unexpectedEnd, [])
  | f + 1, t :: rest =>
    if t = "(" then
      match parseRegExpF f rest with
      | .ok (expr, afterExpr) =>
        match afterExpr with
        | ")" :: tl => .ok (expr, tl)
        | _ => .error (.expectedClose, afterExpr)
      | .error e => .error e
    else if t = "∅" then .ok (.emptySet, rest)
    else if t = "ε" then .ok (.epsilon, rest)
    else if isLetterTok t then .ok (.charNode t.front, rest)
    else .error (.unexpectedToken t, t :: rest)

/-- `parseFactor(tokens)`: an atom with an optional postfix `*`. -/
def parseFactorF : Nat → List String → Except PErr (RE × List String)
  | 0, toks => .error (.fuelOut, toks)
  | f + 1, toks =>
    match parseAtomF f toks with
    | .ok (atom, "*" :: tl) => .ok (.star atom, tl)
    | .ok (atom, rest) => .ok (atom, rest)
    | .error e => .error e

/-- The concatenation loop of `parseProduct`: as long as the next token can
start an atom, parse another factor and fold it in from the left. -/
def parseProductLoopF : Nat → RE → List String → Except PErr (RE × List String)
  | 0, _, toks => .error (.fuelOut, toks)
  | f + 1, acc, t :: rest =>
    if isAtomStart t then
      match parseFactorF f (t :: rest) with
      | .ok (right, rightRest) => parseProductLoopF f (.concat acc right) rightRest
      | .error e => .error e
    else .ok (acc, t :: rest)
  | _ + 1, acc, [] => .ok (acc, [])

/-- `parseProduct(tokens)`. -/
def parseProductF : Nat → List String → Except PErr (RE × List String)
  | 0, toks => .error (.fuelOut, toks)
  | f + 1, toks =>
    match parseFactorF f toks with
    | .ok (result, rest) => parseProductLoopF f result rest
    | .error e => .error e

/-- The union loop of `parseRegExp`: as long as the next token is `+`,
parse another product and fold it in from the left. -/
def parseRegExpLoopF : Nat → RE → List String → Except PErr (RE × List String)
  | 0, _, toks => .error (.fuelOut, toks)
  | f + 1, acc, "+" :: tl =>
    match parseProductF f tl with
    | .ok (right, rightRest) => parseRegExpLoopF f (.union acc right) rightRest
    | .error e => .error e
  | _ + 1, acc, rest => .ok (acc, rest)

/-- `parseRegExp(tokens)`. -/
def parseRegExpF : Nat → List String → Except PErr (RE × List String)
  | 0, toks => .error (.fuelOut, toks)
  | f + 1, toks =>
    match parseProductF f toks with
    | .ok (result, rest) => parseRegExpLoopF f result rest
    | .error e => .error e

end

/-- `parse(s)`: tokenize, parse a whole regular expression, and fail on
trailing tokens.  The fuel `5·|tokens| + 5` bounds the call depth of the
mutual recursion (proved sufficient in `parse_total_or_reported`). -/
def parse (s : String) : Except PErr RE :=
  match parseRegExpF (5 * (tokenize s).length + 5) (tokenize s) with
  | .ok (_, t :: rest) => .error (.trailingTokens, t :: rest)
  | .ok (result, []) => .ok result
  | .error e => .error e

/-- Predicates used to state what the parser guarantees: an error is one of
the source's reported errors (never the fuel artifact, and the
trailing-tokens error only at top level), carrying a suffix of the input
token stream, with the offending token at its head where one exists. -/
def errReported (toks : List String) (m : ParseMsg) (rest : List String) : Prop :=
  m ≠ .fuelOut ∧ m ≠ .trailingTokens ∧ rest <:+ toks ∧
  (m = .unexpectedEnd → rest = []) ∧
  (∀ t, m = .unexpectedToken t → rest.head? = some t)

def goodStrict (toks : List String) : Except PErr (RE × List String) → Prop
  | .ok (_, rest) => rest <:+ toks ∧ rest.length < toks.length
  | .error (m, rest) => errReported toks m rest

def goodLax (toks : List String) : Except PErr (RE × List String) → Prop
  | .ok (_, rest) => rest <:+ toks ∧ rest.length ≤ toks.length
  | .error (m, rest) => errReported toks m rest

def letterToks (cs : List Char) : List String := cs.map String.singleton

def tailToks : List Char → List String
  | [] => []
  | d :: t => "+" :: String.singleton d :: tailToks t

def unionStr : Char → List Char → String
  | c, [] => String.singleton c
  | c, d :: t => String.singleton c ++ "+" ++ unionStr d t

def concatStr : Char → List Char → String
  | c, [] => String.singleton c
  | c, d :: t => String.singleton c ++ concatStr d t

def foldUnion (acc : RE) (cs : List Char) : RE :=
  cs.foldl (fun a c => .union a (.charNode c)) acc

def foldConcat (acc : RE) (cs : List Char) : RE :=
  cs.foldl (fun a c => .concat a (.charNode c)) acc

end Par

/-! ## The Thompson construction (`03-RegExp-2-NFA.ts`)

Both variants of the file build the same automata; states are minted by one
monotonically increasing counter (`StateGenerator.getNewState` returns
`++stateCount`), threaded through the compilation.  The transition relation
maps `(state, symbol)` keys (the `"q,c"` strings / `Tuple(q, c)` keys of the
source) to sets of states; `'ε'` labels epsilon edges. -/

namespace Th

/-- A transition relation `Map<string, RecursiveSet<State>>`. -/
abbrev TransRel : Type := List ((Nat × Char) × List Nat)

/-- The NFA record `(Q, Σ, δ, q0, A)`. -/
structure NFA where
  Q : List Nat
  Sigma : List Char
  delta : TransRel
  q0 : Nat
  A : List Nat
deriving DecidableEq, Repr

/-- `getNewState`: `return ++this.stateCount`. -/
def getNewState (n : Nat) : Nat × Nat := (n + 1, n + 1)

/-- `getOnlyElement(S)`: the first (smallest) element; the source throws on
an empty set, which never happens (`toNFA_single_accept`). -/
def getOnlyElement (S : List Nat) : Nat := S.headD 0

/-- A two-element `RecursiveSet` (stored sorted). -/
def mk2 (a b : Nat) : List Nat := sInsert a [b]

/-- `copyDelta(d1, d2)`: copy `d1`, then `set` every entry of `d2`. -/
def copyDelta (d1 d2 : TransRel) : TransRel :=
  d2.foldl (fun acc kv => alSet acc kv.1 kv.2) d1

/-- `genEmptyNFA`: two fresh states, no transitions. -/
def genEmptyNFA (n : Nat) (Sigma : List Char) : NFA × Nat :=
  ({ Q := [n + 1, n + 2], Sigma := Sigma, delta := [], q0 := n + 1, A := [n + 2] }, n + 2)

/-- `genEpsilonNFA`: two fresh states, one ε-edge. -/
def genEpsilonNFA (n : Nat) (Sigma : List Char) : NFA × Nat :=
  ({ Q := [n + 1, n + 2], Sigma := Sigma, delta := [((n + 1, 'ε'), [n + 2])],
     q0 := n + 1, A := [n + 2] }, n + 2)

/-- `genCharNFA`: two fresh states, one `c`-edge. -/
def genCharNFA (n : Nat) (Sigma : List Char) (c : Char) : NFA × Nat :=
  ({ Q := [n + 1, n + 2], Sigma := Sigma, delta := [((n + 1, c), [n + 2])],
     q0 := n + 1, A := [n + 2] }, n + 2)

/-- `catenate(f1, f2)`: merge the deltas, add the ε-edge from `f1`'s accept
state to `f2`'s start; start is `f1`'s, accept is `f2`'s. -/
def catenate (f1 f2 : NFA) : NFA :=
  let q2 := getOnlyElement f1.A
  { Q := sUnion f1.Q f2.Q
    Sigma := f1.Sigma
    delta := alSet (copyDelta f1.delta f2.delta) (q2, 'ε') [f2.q0]
    q0 := f1.q0
    A := f2.A }

/-- `disjunction(f1, f2)`: two fresh states `q0, q5`; ε-edges
`q0→{f1.q0, f2.q0}`, `f1.accept→{q5}`, `f2.accept→{q5}`. -/
def disjunction (f1 f2 : NFA) (n : Nat) : NFA × Nat :=
  let q3 := getOnlyElement f1.A
  let q4 := getOnlyElement f2.A
  let q0 := n + 1
  let q5 := n + 2
  ({ Q := sUnion (sUnion (mk2 q0 q5) f1.Q) f2.Q
     Sigma := f1.Sigma
     delta := alSet (alSet (alSet (copyDelta f1.delta f2.delta)
       (q0, 'ε') (mk2 f1.q0 f2.q0)) (q3, 'ε') [q5]) (q4, 'ε') [q5]
     q0 := q0
     A := [q5] }, n + 2)

/-- `kleene(f)`: two fresh states `q0, q3`; ε-edges `q0→{f.q0, q3}` and
`f.accept→{f.q0, q3}`. -/
def kleene (f : NFA) (n : Nat) : NFA × Nat :=
  let q2 := getOnlyElement f.A
  let q0 := n + 1
  let q3 := n + 2
  let targets := mk2 f.q0 q3
  ({ Q := sUnion (mk2 q0 q3) f.Q
     Sigma := f.Sigma
     delta := alSet (alSet f.delta (q0, 'ε') targets) (q2, 'ε') targets
     q0 := q0
     A := [q3] }, n + 2)

/-- `RegExp2NFA.toNFA(r)`, with the state counter threaded explicitly
(`toNFA Sigma r n` is the compilation of `r` when the counter last minted
state `n`). -/
def toNFA (Sigma : List Char) : RE → Nat → NFA × Nat
  | .emptySet, n => genEmptyNFA n Sigma
  | .epsilon, n => genEpsilonNFA n Sigma
  | .charNode c, n => genCharNFA n Sigma c
  | .star r, n =>
    let p := toNFA Sigma r n
    kleene p.1 p.2
  | .concat l r, n =>
    let p1 := toNFA Sigma l n
    let p2 := toNFA Sigma r p1.2
    (catenate p1.1 p2.1, p2.2)
  | .union l r, n =>
    let p1 := toNFA Sigma l n
    let p2 := toNFA Sigma r p1.2
    disjunction p1.1 p2.1 p2.2

end Th

/-! ## The subset construction (`01-NFA-2-DFA.ts`)

The `RecursiveSet` variant.  DFA states are sets of NFA states (`NSet`);
the transition table maps `(compositeState, symbol)` keys (the
`key(M, c) = M.toString() + "," + c` strings of the source, injective on
sorted sets) to composite states.  The input NFA record has the same shape
as the one the Thompson construction produces (`Th.NFA`).  The `while`
loops are fueled; `none` means the fuel ran out, which cannot happen for
the canonical fuel (`nfa2dfa_fuel_sufficient`). -/

namespace Sub

/-- A DFA state: a `RecursiveSet<State>` of NFA states. -/
abbrev NSet : Type := List Nat

/-- `bigUnion(M)`: the union of a set of sets. -/
def bigUnion (sets : List NSet) : NSet := sets.foldl (fun acc s => sUnion s acc) []

/-- The loop of `epsClosure`: repeatedly add all ε-targets of the current
set until nothing new appears. -/
def epsClosureLoop (delta : Th.TransRel) : Nat → NSet → Option NSet
  | 0, _ => none
  | fuel + 1, result =>
    let setsToUnite := result.filterMap (fun q => alGet delta (q, 'ε'))
    let newStates := bigUnion setsToUnite
    if sSubset newStates result then some result
    else epsClosureLoop delta fuel (sUnion result newStates)

/-- `epsClosure(s, delta)`. -/
def epsClosure (s : Nat) (delta : Th.TransRel) (fuel : Nat) : Option NSet :=
  epsClosureLoop delta fuel [s]

/-- `deltaHat(s, c, delta)`: the ε-closures of the direct `c`-targets. -/
def deltaHat (s : Nat) (c : Char) (delta : Th.TransRel) (fuel : Nat) : Option NSet :=
  match alGet delta (s, c) with
  | none => some []
  | some directTargets =>
    (directTargets.mapM (fun q => epsClosure q delta fuel)).map bigUnion

/-- `capitalDelta(M, c, delta) = ⋃ { deltaHat(q, c) | q ∈ M }`. -/
def capitalDelta (M : NSet) (c : Char) (delta : Th.TransRel) (fuel : Nat) : Option NSet :=
  (M.mapM (fun q => deltaHat q c delta fuel)).map bigUnion

/-- The inner `for (const c of Sigma)` loop of `allStates`: compute the
successor under every symbol, appending unseen composite states to the
worklist and the state set. -/
def stepSyms (delta : Th.TransRel) (M : NSet) (fuel : Nat) :
    List Char → List NSet → List NSet → Option (List NSet × List NSet)
  | [], queue, states => some (queue, states)
  | c :: cs, queue, states =>
    match capitalDelta M c delta fuel with
    | none => none
    | some N =>
      if states.contains N then stepSyms delta M fuel cs queue states
      else stepSyms delta M fuel cs (queue ++ [N]) (states ++ [N])

/-- The worklist loop of `allStates` (BFS over composite states). -/
def allStatesLoop (delta : Th.TransRel) (Sigma : List Char) :
    Nat → List NSet → List NSet → Option (List NSet)
  | _, [], states => some states
  | 0, _ :: _, _ => none
  | fuel + 1, M :: queue, states =>
    match stepSyms delta M fuel Sigma queue states with
    | none => none
    | some (queue₁, states₁) => allStatesLoop delta Sigma fuel queue₁ states₁

/-- `allStates(Q0, delta, Sigma)`. -/
def allStates (Q0 : NSet) (delta : Th.TransRel) (Sigma : List Char) (fuel : Nat) :
    Option (List NSet) :=
  allStatesLoop delta Sigma fuel [Q0] [Q0]

/-- The DFA record produced by the subset construction. -/
structure DFA where
  Q : List NSet
  Sigma : List Char
  delta : List ((NSet × Char) × NSet)
  q0 : NSet
  A : List NSet
deriving DecidableEq, Repr

/-- Step 3 of `nfa2dfa`: one `newDelta.set(key(M, c), capitalDelta(M, c))`
for every `M` in the state set and every `c` in the alphabet. -/
def buildDelta (states : List NSet) (Sigma : List Char) (delta : Th.TransRel)
    (fuel : Nat) : Option (List ((NSet × Char) × NSet)) :=
  (states.mapM (fun M =>
    Sigma.mapM (fun c =>
      (capitalDelta M c delta fuel).map (fun N => ((M, c), N))))).map List.flatten

/-- `nfa2dfa(nfa)`: powerset construction.  Steps 1–4 of the source in
order: start state, reachable composite states, transition table, accepting
states (`M` is accepting iff `M ∩ A ≠ ∅`). -/
def nfa2dfa (nfa : Th.NFA) (fuel : Nat) : Option DFA :=
  (epsClosure nfa.q0 nfa.delta fuel).bind fun newStart =>
  (allStates newStart nfa.delta nfa.Sigma fuel).bind fun newStates =>
  (buildDelta newStates nfa.Sigma nfa.delta fuel).map fun newDelta =>
  { Q := newStates
    Sigma := nfa.Sigma
    delta := newDelta
    q0 := newStart
    A := newStates.filter (fun M => !(sInter M nfa.A).isEmpty) }

/-- The concrete NFA of the counterexample to C4: the Thompson automaton of
`∅` over the alphabet `{a}` (two states, no transitions). -/
def nfaEmptyEx : Th.NFA := (Th.toNFA ['a'] .emptySet 0).1

end Sub

/-! ## The DFA minimizer (`07-Minimize.ts`)

The native-`Set` variant: states are numbers, the transition relation is
`Map<State, Map<Char, State>>` (partial: an absent entry is an implicit
reject, spec §3), accepting states a `Set<State>`.  JavaScript `Set`s of
numbers deduplicate (insertion order); `Set`s of pair-arrays and of
`Set`-objects never deduplicate, and all membership tests the algorithm
performs on them are structural scans — the list embedding mirrors both.
The `minimize` of the `RecursiveSet` variant differs only in container
plumbing. -/

namespace Min

/-- The DFA record of `07-Minimize.ts`. -/
structure SDFA where
  Q : List Nat
  Sigma : List Char
  delta : List (Nat × List (Char × Nat))
  q0 : Nat
  F : List Nat
deriving DecidableEq, Repr

/-- The minimized DFA: states are equivalence classes (sets of original
states, kept in discovery order), keyed in the transition table by
`JSON.stringify([Array.from(class), c])`. -/
structure MinDFA where
  Q : List (List Nat)
  Sigma : List Char
  delta : List ((List Nat × Char) × List Nat)
  q0 : List Nat
  F : List (List Nat)
deriving DecidableEq, Repr

/-- `delta.get(q)?.get(c)`. -/
def dget (delta : List (Nat × List (Char × Nat))) (q : Nat) (c : Char) : Option Nat :=
  (alGet delta q).bind (fun m => alGet m c)

/-- `Set<number>.add`: deduplicating, insertion order. -/
def addNat (s : List Nat) (x : Nat) : List Nat := if s.contains x then s else s ++ [x]

/-- `cartProd(A, B)` (a `Set` of fresh pair-arrays: no deduplication). -/
def cartProd {α β : Type} (A : List α) (B : List β) : List (α × β) :=
  (A.map (fun a => B.map (fun b => (a, b)))).flatten

/-- The `hasPair` helper of `separate`: both targets defined and the target
pair already known separable. -/
def hasPair (Pairs : List (Nat × Nat)) : Option Nat → Option Nat → Bool
  | some p1, some p2 => Pairs.contains (p1, p2)
  | _, _ => false

/-- `separate(Pairs, States, Σ, δ)`: every `(q1, q2)` some symbol of which
maps into a known separable pair (one fresh array per triggering symbol,
as in the source). -/
def separate (Pairs : List (Nat × Nat)) (States : List Nat) (Sigma : List Char)
    (delta : List (Nat × List (Char × Nat))) : List (Nat × Nat) :=
  ((States.map (fun q1 => States.map (fun q2 =>
    Sigma.filterMap (fun c =>
      if hasPair Pairs (dget delta q1 c) (dget delta q2 c)
      then some (q1, q2) else none)))).flatten).flatten

/-- One pass of the `reachable` fixed point: all one-step successors of the
current set. -/
def reachStep (delta : List (Nat × List (Char × Nat))) (Sigma : List Char)
    (Result : List Nat) : List Nat :=
  Result.foldl (fun acc p =>
    match alGet delta p with
    | none => acc
    | some transitions =>
      Sigma.foldl (fun acc2 c =>
        match alGet transitions c with
        | some next => addNat acc2 next
        | none => acc2) acc) []

/-- The `while (true)` loop of `reachable`. -/
def reachableLoop (delta : List (Nat × List (Char × Nat))) (Sigma : List Char) :
    Nat → List Nat → Option (List Nat)
  | 0, _ => none
  | fuel + 1, Result =>
    let NewStates := reachStep delta Sigma Result
    if NewStates.all (fun s => Result.contains s) then some Result
    else reachableLoop delta Sigma fuel (NewStates.foldl addNat Result)

/-- `reachable(q0, Σ, δ)`. -/
def reachable (q0 : Nat) (Sigma : List Char)
    (delta : List (Nat × List (Char × Nat))) (fuel : Nat) : Option (List Nat) :=
  reachableLoop delta Sigma fuel [q0]

/-- The fixed-point loop of `allSeparable`. -/
def allSeparableLoop (Q : List Nat) (Sigma : List Char)
    (delta : List (Nat × List (Char × Nat))) :
    Nat → List (Nat × Nat) → Option (List (Nat × Nat))
  | 0, _ => none
  | fuel + 1, Separable =>
    let NewPairs := separate Separable Q Sigma delta
    if NewPairs.all (fun p => Separable.contains p) then some Separable
    else allSeparableLoop Q Sigma delta fuel (Separable ++ NewPairs)

/-- `allSeparable(Q, A, Σ, δ)`: start from
`(NonAccepting × A) ∪ (A × NonAccepting)` — with the accepting set exactly
as passed in — and close under `separate`. -/
def allSeparable (Q A : List Nat) (Sigma : List Char)
    (delta : List (Nat × List (Char × Nat))) (fuel : Nat) : Option (List (Nat × Nat)) :=
  let nonAccepting := Q.filter (fun q => !A.contains q)
  allSeparableLoop Q Sigma delta fuel (cartProd nonAccepting A ++ cartProd A nonAccepting)

/-- `findEquivalenceClass(p, Partition)`: the first class containing `p`
(the source throws when there is none; that path is never taken on the
inputs below, and the embedding returns the empty class there). -/
def findEquivalenceClass (p : Nat) (Partition : List (List Nat)) : List Nat :=
  ((Partition.filter (fun C => C.contains p)).head?).getD []

/-- Step 7 of `minimize`: for every original state and symbol, map the
class of the state to the class of its target (the empty class when the
target is undefined), overwriting earlier entries with the same key as
`Map.set` does. -/
def buildMinDelta (Q : List Nat) (Sigma : List Char)
    (delta : List (Nat × List (Char × Nat))) (classes : List (List Nat)) :
    List ((List Nat × Char) × List Nat) :=
  Q.foldl (fun acc q =>
    let classOfQ := findEquivalenceClass q classes
    Sigma.foldl (fun acc2 c =>
      let classOfP :=
        match dget delta q c with
        | some next => findEquivalenceClass next classes
        | none => []
      alSet acc2 (classOfQ, c) classOfP) acc) []

/-- `minimize(F)`: steps 1–8 of the source in order.  The separable-pair
computation receives the accepting set `D.F` exactly as found in the input
record (not restricted to the reachable states). -/
def minimize (D : SDFA) (fuel : Nat) : Option MinDFA :=
  (reachable D.q0 D.Sigma D.delta fuel).bind fun Q =>
  (allSeparable Q D.F D.Sigma D.delta fuel).bind fun Separable =>
  let Equivalent := (cartProd Q Q).filter (fun p => !Separable.contains p)
  let EquivClasses :=
    (Q.map (fun q => Q.filter (fun p => Equivalent.contains (p, q)))).filter
      (fun cls => !cls.isEmpty)
  ((EquivClasses.filter (fun C => C.contains D.q0)).head?).bind fun newQ0 =>
  let newAccept := EquivClasses.filter (fun C =>
    match C.head? with
    | some rep => D.F.contains rep
    | none => false)
  some { Q := EquivClasses
         Sigma := D.Sigma
         delta := buildMinDelta Q D.Sigma D.delta EquivClasses
         q0 := newQ0
         F := newAccept }

/-- The separable-pair set as `minimize` computes it (steps 1–2). -/
def minSeparable (D : SDFA) (fuel : Nat) : Option (List (Nat × Nat)) :=
  (reachable D.q0 D.Sigma D.delta fuel).bind fun Q =>
  allSeparable Q D.F D.Sigma D.delta fuel

/-- Modelled from the spec: the repository defines no `accepts` function
for these records; spec §3 fixes the acceptance semantics of the automaton
record — run `δ` from `q0`, an absent entry is an implicit reject, and a
word is accepted iff the state reached is in the accepting set.  Runner
for the number-state DFA. -/
def acceptsFrom (delta : List (Nat × List (Char × Nat))) (F : List Nat) :
    Nat → List Char → Bool
  | q, [] => F.contains q
  | q, c :: w =>
    match dget delta q c with
    | some q2 => acceptsFrom delta F q2 w
    | none => false

/-- Modelled from the spec: acceptance for the input DFA record. -/
def accepts (D : SDFA) (w : List Char) : Bool := acceptsFrom D.delta D.F D.q0 w

/-- Modelled from the spec: the same acceptance semantics for the minimized
automaton, whose states are classes and whose table is keyed by
`(class, symbol)`. -/
def acceptsMinFrom (delta : List ((List Nat × Char) × List Nat)) (F : List (List Nat)) :
    List Nat → List Char → Bool
  | C, [] => F.contains C
  | C, c :: w =>
    match alGet delta (C, c) with
    | some C2 => acceptsMinFrom delta F C2 w
    | none => false

/-- Modelled from the spec: acceptance for the minimized DFA record. -/
def acceptsMin (M : MinDFA) (w : List Char) : Bool := acceptsMinFrom M.delta M.F M.q0 w

/-- The failing input for C2: a legal automaton record per spec §3 (all
four states reachable, `A ⊆ Q`, `δ` partial).  State 1 is a dead end
(no outgoing transitions) yet `separate` never separates it from state 2,
because it skips every pair with a missing component transition. -/
def dfaPartialEx : SDFA :=
  { Q := [0, 1, 2, 3]
    Sigma := ['a', 'b']
    delta := [(0, [('a', 1), ('b', 2)]), (2, [('a', 3)])]
    q0 := 0
    F := [3] }

/-- The input for the C6 counterexample: state 2 is accepting but
unreachable. -/
def dfaUnreachAccEx : SDFA :=
  { Q := [0, 2]
    Sigma := ['a']
    delta := [(0, [('a', 0)])]
    q0 := 0
    F := [2] }

end Min

/-! ## The equivalence checker's product construction (`09-Equivalence.ts`)

`fsmComplement` (the string-keyed variant) and `fsm_complement` (the
`RecursiveSet` variant).  Component states are embedded as numbers; the
composite string keys `` `${p},${c}` `` and `` `(${p1},${p2}),${c}` `` are
in bijection with the pairs `(p, c)` and `((p1, p2), c)` used here.  The
`RecursiveSet` containers of the second variant re-sort their elements;
the embedding keeps iteration order, on which none of the membership
statements proved below depend. -/

namespace Eqv

/-- The component DFA record (`DFA1` / `DFA`). -/
structure PDFA where
  Q : List Nat
  Sigma : List Char
  delta : List ((Nat × Char) × Nat)
  q0 : Nat
  F : List Nat
deriving DecidableEq, Repr

/-- The product automaton record (`DFA2` / `ProductDFA`). -/
structure ProductDFA where
  Q : List (Nat × Nat)
  Sigma : List Char
  delta : List (((Nat × Nat) × Char) × (Nat × Nat))
  q0 : Nat × Nat
  F : List (Nat × Nat)
deriving DecidableEq, Repr

/-- `cartesianProduct(A, B)`: one fresh pair per `x ∈ A`, `y ∈ B`. -/
def cartesianProduct {α β : Type} (A : List α) (B : List β) : List (α × β) :=
  (A.map (fun a => B.map (fun b => (a, b)))).flatten

/-- The componentwise product target used to state the table's contents:
defined exactly when both component transitions are. -/
def prodVal (d1 d2 : List ((Nat × Char) × Nat)) (p : Nat × Nat) (c : Char) :
    Option (Nat × Nat) :=
  match alGet d1 (p.1, c), alGet d2 (p.2, c) with
  | some n1, some n2 => some (n1, n2)
  | _, _ => none

/-- The inner alphabet loop of `fsmComplement`: `Map.set` on each symbol,
`throw new Error(...)` (here `.error` carrying the offending pair and
symbol) as soon as either component transition is missing. -/
def fsmComplementRow (d1 d2 : List ((Nat × Char) × Nat)) (p : Nat × Nat)
    (acc : List (((Nat × Nat) × Char) × (Nat × Nat))) :
    List Char → Except ((Nat × Nat) × Char) (List (((Nat × Nat) × Char) × (Nat × Nat)))
  | [] => .ok acc
  | c :: cs =>
    match alGet d1 (p.1, c), alGet d2 (p.2, c) with
    | some n1, some n2 => fsmComplementRow d1 d2 p (alSet acc (p, c) (n1, n2)) cs
    | _, _ => .error (p, c)

/-- The outer state loop of `fsmComplement`. -/
def fsmComplementAll (d1 d2 : List ((Nat × Char) × Nat)) (Sigma : List Char)
    (acc : List (((Nat × Nat) × Char) × (Nat × Nat))) :
    List (Nat × Nat) → Except ((Nat × Nat) × Char) (List (((Nat × Nat) × Char) × (Nat × Nat)))
  | [] => .ok acc
  | p :: ps =>
    (fsmComplementRow d1 d2 p acc Sigma).bind fun acc2 =>
      fsmComplementAll d1 d2 Sigma acc2 ps

/-- `fsmComplement(F1, F2)`: states `Q1 × Q2`, table built over
`States × Σ` throwing on any missing component transition, start
`(q01, q02)`, accepting `A1 × (Q2 ∖ A2)`. -/
def fsmComplement (F1 F2 : PDFA) : Except ((Nat × Nat) × Char) ProductDFA :=
  let States := cartesianProduct F1.Q F2.Q
  (fsmComplementAll F1.delta F2.delta F1.Sigma [] States).map fun delta =>
    { Q := States
      Sigma := F1.Sigma
      delta := delta
      q0 := (F1.q0, F2.q0)
      F := cartesianProduct F1.F (F2.Q.filter (fun s => !F2.F.contains s)) }

/-- The inner alphabet loop of `fsm_complement`: `if (next1 && next2)`
sets the entry, otherwise the pair and symbol are skipped. -/
def prodDeltaRow (d1 d2 : List ((Nat × Char) × Nat)) (p : Nat × Nat)
    (acc : List (((Nat × Nat) × Char) × (Nat × Nat))) :
    List Char → List (((Nat × Nat) × Char) × (Nat × Nat))
  | [] => acc
  | c :: cs =>
    match alGet d1 (p.1, c), alGet d2 (p.2, c) with
    | some n1, some n2 => prodDeltaRow d1 d2 p (alSet acc (p, c) (n1, n2)) cs
    | _, _ => prodDeltaRow d1 d2 p acc cs

/-- The outer state loop of `fsm_complement`. -/
def prodDeltaAll (d1 d2 : List ((Nat × Char) × Nat)) (Sigma : List Char)
    (acc : List (((Nat × Nat) × Char) × (Nat × Nat))) :
    List (Nat × Nat) → List (((Nat × Nat) × Char) × (Nat × Nat))
  | [] => acc
  | p :: ps => prodDeltaAll d1 d2 Sigma (prodDeltaRow d1 d2 p acc Sigma) ps

/-- `fsm_complement(F1, F2)` (the `RecursiveSet` variant): same product,
but a pair with a missing component transition is silently skipped. -/
def fsm_complement (F1 F2 : PDFA) : ProductDFA :=
  let newStates := cartesianProduct F1.Q F2.Q
  { Q := newStates
    Sigma := F1.Sigma
    delta := prodDeltaAll F1.delta F2.delta F1.Sigma [] newStates
    q0 := (F1.q0, F2.q0)
    F := cartesianProduct F1.F (F2.Q.filter (fun s => !F2.F.contains s)) }

/-- Totality of a component table over `Q` and `Sig`: every state has a
transition on every symbol, landing back in `Q` (decidable, for the
hypotheses of the difference-language theorem). -/
def totalOn (Q : List Nat) (delta : List ((Nat × Char) × Nat)) (Sig : List Char) : Bool :=
  Q.all (fun q => Sig.all (fun c =>
    match alGet delta (q, c) with
    | some n => Q.contains n
    | none => false))

/-- Modelled from the spec: the repository defines no `accepts` for these
records; spec §3 fixes the semantics — run the table from the start state,
an absent entry is an implicit reject, accept iff the final state is
accepting.  Runner for the component DFA. -/
def acceptsPFrom (delta : List ((Nat × Char) × Nat)) (F : List Nat) :
    Nat → List Char → Bool
  | q, [] => F.contains q
  | q, c :: w =>
    match alGet delta (q, c) with
    | some q2 => acceptsPFrom delta F q2 w
    | none => false

/-- Modelled from the spec: acceptance for the component DFA record. -/
def acceptsP (D : PDFA) (w : List Char) : Bool := acceptsPFrom D.delta D.F D.q0 w

/-- Modelled from the spec: the same runner for the product automaton. -/
def acceptsProdFrom (delta : List (((Nat × Nat) × Char) × (Nat × Nat)))
    (F : List (Nat × Nat)) : (Nat × Nat) → List Char → Bool
  | p, [] => F.contains p
  | p, c :: w =>
    match alGet delta (p, c) with
    | some p2 => acceptsProdFrom delta F p2 w
    | none => false

/-- Modelled from the spec: acceptance for the product automaton record. -/
def acceptsProd (P : ProductDFA) (w : List Char) : Bool :=
  acceptsProdFrom P.delta P.F P.q0 w

/-- A legal component DFA per spec §3 with a partial table (no transitions
at all): input for the C5 counterexample. -/
def dfaNoTransEx : PDFA := { Q := [0], Sigma := ['a'], delta := [], q0 := 0, F := [0] }

/-- A total DFA over `{a}` accepting every nonempty word. -/
def dfaTotAEx : PDFA :=
  { Q := [0, 1], Sigma := ['a'], delta := [((0, 'a'), 1), ((1, 'a'), 1)], q0 := 0, F := [1] }

/-- A total DFA over `{a}` accepting nothing. -/
def dfaTotBEx : PDFA :=
  { Q := [0], Sigma := ['a'], delta := [((0, 'a'), 0)], q0 := 0, F := [] }

end Eqv


/-! ## State elimination (`05-DFA-2-RegExp.ts`)

`rpq` and `dfa2regexp` over the subset-construction DFAs (composite
states, `Map` keyed by `(state, symbol)`).  `parts` is a
`RecursiveSet<RegExp>`: structurally equal subexpressions are stored
once; the embedding deduplicates in insertion order (the re-sorting of
the container permutes union operands only, which no statement below
depends on). -/

namespace D2R

/-- `regexpSum(S)`: 0 for the empty list, right-nested union otherwise. -/
def regexpSum : List RE → RE
  | [] => .emptySet
  | [r] => r
  | r :: rest => .union r (regexpSum rest)

/-- `rpq(p1, p2, Sigma, delta, Allowed)` (state elimination). -/
def rpq (Sigma : List Char) (delta : List ((Sub.NSet × Char) × Sub.NSet)) :
    Sub.NSet → Sub.NSet → List Sub.NSet → RE
  | p1, p2, [] =>
    let allChars := Sigma.filter (fun c => alGet delta (p1, c) = some p2)
    let r := regexpSum (allChars.map RE.charNode)
    if p1 = p2 then .union .epsilon r else r
  | p1, p2, q :: RestAllowed =>
    .union (rpq Sigma delta p1 p2 RestAllowed)
      (.concat
        (.concat (rpq Sigma delta p1 q RestAllowed)
          (.star (rpq Sigma delta q q RestAllowed)))
        (rpq Sigma delta q p2 RestAllowed))

/-- `dfa2regexp(F)`. -/
def dfa2regexp (F : Sub.DFA) : RE :=
  let allStates := F.Q
  let parts := F.A.foldl (fun acc accSt =>
    let r := rpq F.Sigma F.delta F.q0 accSt allStates
    if acc.contains r then acc else acc ++ [r]) []
  regexpSum parts

end D2R

/-! ## The round-trip pipeline (`09-Equivalence.ts`, `RecursiveSet` variant)

`regexp2DFA`, `fsm_complement`, `is_empty` and `regExpEquiv` over the
subset-construction DFAs of `Sub` (states are sorted sets of Thompson
states).  Same embedding conventions as `Eqv`: `RecursiveSet` containers
re-sort, the list embedding keeps iteration order with deduplicating
insertion where the source container deduplicates. -/

namespace Rt

structure ProductDFA where
  Q : List (Sub.NSet × Sub.NSet)
  Sigma : List Char
  delta : List (((Sub.NSet × Sub.NSet) × Char) × (Sub.NSet × Sub.NSet))
  q0 : Sub.NSet × Sub.NSet
  A : List (Sub.NSet × Sub.NSet)
deriving DecidableEq, Repr

def cartesianProduct {α β : Type} (A : List α) (B : List β) : List (α × β) :=
  (A.map (fun a => B.map (fun b => (a, b)))).flatten

def prodDeltaRow (d1 d2 : List ((Sub.NSet × Char) × Sub.NSet)) (p : Sub.NSet × Sub.NSet)
    (acc : List (((Sub.NSet × Sub.NSet) × Char) × (Sub.NSet × Sub.NSet))) :
    List Char → List (((Sub.NSet × Sub.NSet) × Char) × (Sub.NSet × Sub.NSet))
  | [] => acc
  | c :: cs =>
    match alGet d1 (p.1, c), alGet d2 (p.2, c) with
    | some n1, some n2 => prodDeltaRow d1 d2 p (alSet acc (p, c) (n1, n2)) cs
    | _, _ => prodDeltaRow d1 d2 p acc cs

def prodDeltaAll (d1 d2 : List ((Sub.NSet × Char) × Sub.NSet)) (Sigma : List Char)
    (acc : List (((Sub.NSet × Sub.NSet) × Char) × (Sub.NSet × Sub.NSet))) :
    List (Sub.NSet × Sub.NSet) → List (((Sub.NSet × Sub.NSet) × Char) × (Sub.NSet × Sub.NSet))
  | [] => acc
  | p :: ps => prodDeltaAll d1 d2 Sigma (prodDeltaRow d1 d2 p acc Sigma) ps

def fsm_complement (F1 F2 : Sub.DFA) : ProductDFA :=
  let newStates := cartesianProduct F1.Q F2.Q
  { Q := newStates
    Sigma := F1.Sigma
    delta := prodDeltaAll F1.delta F2.delta F1.Sigma [] newStates
    q0 := (F1.q0, F2.q0)
    A := cartesianProduct F1.A (F2.Q.filter (fun s => !F2.A.contains s)) }

def addPair (s : List (Sub.NSet × Sub.NSet)) (x : Sub.NSet × Sub.NSet) :
    List (Sub.NSet × Sub.NSet) :=
  if s.contains x then s else s ++ [x]

def isEmptyStep (delta : List (((Sub.NSet × Sub.NSet) × Char) × (Sub.NSet × Sub.NSet)))
    (Sigma : List Char) (reach : List (Sub.NSet × Sub.NSet)) :
    List (Sub.NSet × Sub.NSet) :=
  reach.foldl (fun acc q =>
    Sigma.foldl (fun acc2 c =>
      match alGet delta (q, c) with
      | some t => addPair acc2 t
      | none => acc2) acc) []

def isEmptyLoop (delta : List (((Sub.NSet × Sub.NSet) × Char) × (Sub.NSet × Sub.NSet)))
    (Sigma : List Char) : Nat → List (Sub.NSet × Sub.NSet) →
    Option (List (Sub.NSet × Sub.NSet))
  | 0, _ => none
  | fuel + 1, reach =>
    let newFound := isEmptyStep delta Sigma reach
    if newFound.all (fun s => reach.contains s) then some reach
    else isEmptyLoop delta Sigma fuel (newFound.foldl addPair reach)

def is_empty (P : ProductDFA) (fuel : Nat) : Option Bool :=
  (isEmptyLoop P.delta P.Sigma fuel [P.q0]).map fun reach =>
    (reach.filter (fun x => P.A.contains x)).isEmpty

def regexp2DFA (r : RE) (Sigma : List Char) (fuel : Nat) : Option Sub.DFA :=
  Sub.nfa2dfa (Th.toNFA Sigma r 0).1 fuel

def regExpEquiv (r1 r2 : RE) (Sigma : List Char) (fuel : Nat) : Option Bool :=
  (regexp2DFA r1 Sigma fuel).bind fun F1 =>
  (regexp2DFA r2 Sigma fuel).bind fun F2 =>
  (is_empty (fsm_complement F1 F2) fuel).bind fun e1 =>
  (is_empty (fsm_complement F2 F1) fuel).map fun e2 => (e1 && e2)

def roundTrip (r : RE) (Sigma : List Char) (fuel : Nat) : Option Bool :=
  (regexp2DFA r Sigma fuel).bind fun F =>
  regExpEquiv r (D2R.dfa2regexp F) Sigma fuel

end Rt

-- ============================================================================
-- Theorems
-- ============================================================================

theorem mem_sInsert {x a : Nat} {l : List Nat} :
    a ∈ sInsert x l ↔ a = x ∨ a ∈ l := by
  induction l with
  | nil => simp [sInsert]
  | cons y t ih =>
    by_cases h1 : x < y
    · simp [sInsert, h1]
    · by_cases h2 : x = y
      · subst h2; simp [sInsert, h1]
      · simp [sInsert, h1, h2, ih]
        tauto

theorem mem_sUnion {a : Nat} {l₁ l₂ : List Nat} :
    a ∈ sUnion l₁ l₂ ↔ a ∈ l₁ ∨ a ∈ l₂ := by
  induction l₁ with
  | nil => simp [sUnion]
  | cons x t ih =>
    simp only [sUnion, List.foldr_cons] at *
    rw [mem_sInsert, ih]
    simp; tauto

theorem sSubset_iff {l₁ l₂ : List Nat} :
    sSubset l₁ l₂ = true ↔ ∀ a ∈ l₁, a ∈ l₂ := by
  simp [sSubset, List.all_eq_true, List.elem_iff]

theorem mem_sInter {a : Nat} {l₁ l₂ : List Nat} :
    a ∈ sInter l₁ l₂ ↔ a ∈ l₁ ∧ a ∈ l₂ := by
  simp [sInter, List.mem_filter, List.elem_iff]

/-! ### Rewriter lemmas -/

namespace Rw

/-- No term equals a union having it as left component. -/
theorem ne_uni_self (t x : Term) : t ≠ .uni t x := by
  intro h
  have h₁ := congrArg sizeOf h
  simp only [Term.uni.sizeOf_spec] at h₁
  omega

/-- `lseq` is never the atom `n` for `n ≥ 2`. -/
theorem lseq_ne_num {j n : Nat} (h : 2 ≤ n) : lseq j ≠ .num n := by
  cases j with
  | zero => simp [lseq]; omega
  | succ i => simp [lseq]

theorem isVariable_strR : isVariable (Term.str "R") = true := by decide

theorem isVariable_strS : isVariable (Term.str "S") = true := by decide

theorem isVariable_strT : isVariable (Term.str "T") = true := by decide

theorem isVariable_strE : isVariable (Term.str "ε") = false := by decide

/-- On the union of a nonzero atom and a union whose left part is an atom,
the first rule of the catalogue that fires is the `+`-associativity rule. -/
theorem step_uni_num (a y : Nat) (B : Term) (ha : a ≠ 0) :
    simplifyOnce (.uni (.num a) (.uni (.num y) B)) =
      .uni (.uni (.num a) (.num y)) B := by
  have ha2 : ¬(0 = a) := fun h => ha h.symm
  simp [simplifyOnce, firstRewrite, rules, trewrite, vR, vS, vT, eps, zero,
    tmatch, tapply, isVariable_strR, isVariable_strS, isVariable_strT,
    isVariable_strE, alGet, alSet, ha2, isAtom]

/-- Same step with a union on the left. -/
theorem step_uni_uni (l r : Term) (y : Nat) (B : Term)
    (h : Term.uni l r ≠ .uni (.num y) B) :
    simplifyOnce (.uni (.uni l r) (.uni (.num y) B)) =
      .uni (.uni (.uni l r) (.num y)) B := by
  simp [simplifyOnce, firstRewrite, rules, trewrite, vR, vS, vT, eps, zero,
    tmatch, tapply, isVariable_strR, isVariable_strS, isVariable_strT,
    isVariable_strE, alGet, alSet, h, isAtom]

/-- No rule applies at the root of a union of two distinct nonzero atoms. -/
theorem noTop_num_num {a z : Nat} (ha : a ≠ 0) (hz : z ≠ 0) (haz : a ≠ z) :
    firstRewrite (.uni (.num a) (.num z)) rules = none := by
  have ha2 : ¬(0 = a) := fun h => ha h.symm
  have hz2 : ¬(0 = z) := fun h => hz h.symm
  simp [firstRewrite, rules, trewrite, vR, vS, vT, eps, zero,
    tmatch, isVariable_strR, isVariable_strS, isVariable_strT,
    isVariable_strE, alGet, alSet, ha2, hz2, haz]

/-- No rule applies at the root of a union of a union and a nonzero atom. -/
theorem noTop_uni_num {l r : Term} {z : Nat} (hz : z ≠ 0) :
    firstRewrite (.uni (.uni l r) (.num z)) rules = none := by
  have hz2 : ¬(0 = z) := fun h => hz h.symm
  simp [firstRewrite, rules, trewrite, vR, vS, vT, eps, zero,
    tmatch, isVariable_strR, isVariable_strS, isVariable_strT,
    isVariable_strE, alGet, alSet, hz2]

/-- Left-nested unions of the atoms `1, …, j+1` are fixed points of
`simplifyOnce`. -/
theorem simplifyOnce_lseq : ∀ j, simplifyOnce (lseq j) = lseq j := by
  intro j
  induction j with
  | zero => rfl
  | succ i ih =>
    show simplifyOnce (.uni (lseq i) (.num (i + 2))) = _
    have hnone : firstRewrite (.uni (lseq i) (.num (i + 2))) rules = none := by
      cases i with
      | zero => exact noTop_num_num (by norm_num) (by norm_num) (by norm_num)
      | succ k => exact noTop_uni_num (by omega)
    simp [simplifyOnce, hnone, ih, lseq]

/-- One pass of `simplifyOnce` moves exactly one atom of the right-nested
chain into the left-nested prefix. -/
theorem chainStep (j m : Nat) :
    simplifyOnce (.uni (lseq j) (seqR (j + 2) (m + 1))) =
      .uni (lseq (j + 1)) (seqR (j + 3) m) := by
  cases j with
  | zero =>
    show simplifyOnce (.uni (.num 1) (.uni (.num 2) (seqR 3 m))) = _
    rw [step_uni_num 1 2 (seqR 3 m) (by norm_num)]
    simp [lseq, seqR]
  | succ i =>
    show simplifyOnce
        (.uni (.uni (lseq i) (.num (i + 2))) (.uni (.num (i + 3)) (seqR (i + 4) m))) = _
    rw [step_uni_uni _ _ _ _ (by
      intro h
      rw [Term.uni.injEq] at h
      exact lseq_ne_num (by omega) h.1)]
    simp [lseq, seqR]

/-- Each such pass changes the term. -/
theorem stepNe (j m : Nat) :
    Term.uni (lseq j) (seqR (j + 2) (m + 1)) ≠
      .uni (lseq (j + 1)) (seqR (j + 3) m) := by
  intro h
  rw [Term.uni.injEq] at h
  exact ne_uni_self (lseq j) (.num (j + 2)) h.1

/-- Once the chain is fully left-nested, the loop stops at once. -/
theorem loopFix (r j : Nat) :
    simplifyLoop r (.uni (lseq j) (.num (j + 2))) =
      (.uni (lseq j) (.num (j + 2)), false) := by
  have h : simplifyOnce (.uni (lseq j) (.num (j + 2))) = .uni (lseq j) (.num (j + 2)) :=
    simplifyOnce_lseq (j + 1)
  rw [simplifyLoop.eq_def]
  simp [h]

/-- With enough fuel the loop rebalances the whole chain and reports no
cap overflow. -/
theorem loopRun : ∀ m j r, m + 1 ≤ r →
    simplifyLoop r (.uni (lseq j) (seqR (j + 2) (m + 1))) =
      (.uni (lseq (j + m + 1)) (.num (j + m + 3)), false) := by
  intro m
  induction m with
  | zero =>
    intro j r hr
    obtain ⟨r₁, rfl⟩ : ∃ r₁, r = r₁ + 1 := ⟨r - 1, by omega⟩
    rw [simplifyLoop.eq_def]
    simp only [chainStep, if_neg (stepNe j 0)]
    have h0 : seqR (j + 3) 0 = Term.num (j + 3) := rfl
    rw [h0]
    exact loopFix r₁ (j + 1)
  | succ m ih =>
    intro j r hr
    obtain ⟨r₁, rfl⟩ : ∃ r₁, r = r₁ + 1 := ⟨r - 1, by omega⟩
    rw [simplifyLoop.eq_def]
    simp only [chainStep, if_neg (stepNe j (m + 1))]
    have := ih (j + 1) r₁ (by omega)
    rw [show j + 1 + 2 = j + 3 from rfl] at this
    rw [this, show j + 1 + m + 1 = j + (m + 1) + 1 from by omega,
      show j + 1 + m + 3 = j + (m + 1) + 3 from by omega]

/-- With insufficient fuel the loop aborts after `r + 1` productive passes,
returning the partially rebalanced chain and the cap warning. -/
theorem loopAbort : ∀ r j m,
    simplifyLoop r (.uni (lseq j) (seqR (j + 2) (m + r + 2))) =
      (.uni (lseq (j + r + 1)) (seqR (j + r + 3) (m + 1)), true) := by
  intro r
  induction r with
  | zero =>
    intro j m
    rw [simplifyLoop.eq_def]
    rw [show m + 0 + 2 = (m + 1) + 1 from by omega]
    simp only [chainStep, if_neg (stepNe j (m + 1))]
  | succ r ih =>
    intro j m
    rw [simplifyLoop.eq_def]
    rw [show m + (r + 1) + 2 = (m + r + 2) + 1 from by omega]
    simp only [chainStep, if_neg (stepNe j (m + r + 2))]
    have := ih (j + 1) m
    rw [show j + 1 + 2 = j + 3 from rfl] at this
    rw [this, show j + 1 + r + 1 = j + (r + 1) + 1 from by omega,
      show j + 1 + r + 3 = j + (r + 1) + 3 from by omega]

/-- `simplify` on the 1004-atom chain hits the iteration cap and returns a
tree that is not yet fully rebalanced. -/
theorem simplify_capChain :
    simplify capChain = .uni (lseq 1001) (.uni (.num 1003) (.num 1004)) := by
  have h := loopAbort 1000 0 0
  rw [show (0:Nat) + 2 = 2 from rfl, show (0:Nat) + 1000 + 2 = 1002 from rfl,
    show (0:Nat) + 1000 + 1 = 1001 from rfl, show (0:Nat) + 1000 + 3 = 1003 from rfl] at h
  have h2 : seqR 1003 (0 + 1) = Term.uni (.num 1003) (.num 1004) := rfl
  rw [h2] at h
  show (simplifyLoop 1000 (.uni (lseq 0) (seqR 2 1002))).1 = _
  rw [h]

/-- A second run of `simplify` finishes the rebalancing. -/
theorem simplify_simplify_capChain :
    simplify (simplify capChain) = .uni (lseq 1002) (.num 1004) := by
  rw [simplify_capChain]
  have h := loopRun 0 1001 1000 (by omega)
  rw [show (1001:Nat) + 2 = 1003 from rfl, show (1001:Nat) + 0 + 1 = 1002 from rfl,
    show (1001:Nat) + 0 + 3 = 1004 from rfl] at h
  have h2 : seqR 1003 (0 + 1) = Term.uni (.num 1003) (.num 1004) := rfl
  rw [h2] at h
  show (simplifyLoop 1000 _).1 = _
  rw [h]

/-- Claim C7 counterexample: `simplify` is not idempotent on the concrete
term `capChain`, the right-nested union `1+(2+(…+1004))` of 1004 distinct
atoms.  Rebalancing it needs 1002 passes; the cap stops the first
`simplify` run after 1001 passes, and the second run still makes
progress, so `simplify(simplify r)` differs structurally from
`simplify r`. -/
theorem capChain_not_idem :
    simplify (simplify capChain) ≠ simplify capChain := by
  rw [simplify_simplify_capChain, simplify_capChain]
  intro h
  rw [Term.uni.injEq] at h
  exact Term.noConfusion h.2

/-- What the fixed-point loop computes: either it reaches a fixed point of
`simplifyOnce` within its fuel and reports no warning, or all `r + 1`
passes it can afford are productive and it returns the last tree with the
warning flag. -/
theorem simplifyLoop_spec : ∀ r t,
    (∃ m, m ≤ r ∧ simplifyLoop r t = (iterS m t, false) ∧
      simplifyOnce (iterS m t) = iterS m t) ∨
    (simplifyLoop r t = (iterS (r + 1) t, true) ∧
      ∀ k, k ≤ r → simplifyOnce (iterS k t) ≠ iterS k t) := by
  intro r
  induction r with
  | zero =>
    intro t
    by_cases h : t = simplifyOnce t
    · left
      exact ⟨0, le_refl 0, by rw [simplifyLoop.eq_def]; simp [← h, iterS],
        by simp [iterS, ← h]⟩
    · right
      constructor
      · rw [simplifyLoop.eq_def]; simp [h, iterS]
      · intro k hk
        interval_cases k
        simp [iterS]
        exact fun hh => h hh.symm
  | succ r ih =>
    intro t
    by_cases h : t = simplifyOnce t
    · left
      exact ⟨0, by omega, by rw [simplifyLoop.eq_def]; simp [← h, iterS],
        by simp [iterS, ← h]⟩
    · have hstep : simplifyLoop (r + 1) t = simplifyLoop r (simplifyOnce t) := by
        rw [simplifyLoop.eq_def]; simp [h]
      rcases ih (simplifyOnce t) with ⟨m, hm, heq, hfix⟩ | ⟨heq, hall⟩
      · left
        exact ⟨m + 1, by omega, by rw [hstep, heq]; rfl, by simpa [iterS] using hfix⟩
      · right
        constructor
        · rw [hstep, heq]; rfl
        · intro k hk
          cases k with
          | zero => simp [iterS]; exact fun hh => h hh.symm
          | succ k => simpa [iterS] using hall k (by omega)

/-- Claim C9: when the fixed-point loop of `simplify` does not reach a fixed
point within its iteration cap it aborts non-fatally: the returned tree is
exactly the current best-effort tree (the 1001st iterate of
`simplifyOnce`), the warning flag — the `console.warn` of the source — is
raised exactly in that case, and the function still returns normally (it is
total; no exception is involved).  When the flag is not raised the result
is a genuine fixed point. -/
theorem simplify_cap_behavior (t : Term) :
    (simplifyW t).1 = simplify t ∧
    ((simplifyW t).2 = true →
      (simplifyW t).1 = iterS 1001 t ∧
        ∀ k, k ≤ 1000 → simplifyOnce (iterS k t) ≠ iterS k t) ∧
    ((simplifyW t).2 = false →
      simplifyOnce ((simplifyW t).1) = (simplifyW t).1) := by
  refine ⟨rfl, ?_, ?_⟩
  · intro htrue
    rcases simplifyLoop_spec 1000 t with ⟨m, _, heq, _⟩ | ⟨heq, hall⟩
    · exfalso
      have hfb : (simplifyW t).2 = false := by rw [simplifyW, heq]
      rw [htrue] at hfb; exact Bool.noConfusion hfb
    · exact ⟨by rw [simplifyW, heq], hall⟩
  · intro hfalse
    rcases simplifyLoop_spec 1000 t with ⟨m, _, heq, hfix⟩ | ⟨heq, hall⟩
    · rw [simplifyW, heq]; exact hfix
    · exfalso
      have hft : (simplifyW t).2 = true := by rw [simplifyW, heq]
      rw [hfalse] at hft; exact Bool.noConfusion hft

/-- Witness for C9 at a concrete input: on `capChain` the cap is hit, the
warning is emitted, and the best-effort tree (the 1001st iterate) is
returned. -/
theorem simplify_cap_witness_fact :
    (simplifyW capChain).2 = true ∧
      (simplifyW capChain).1 = iterS 1001 capChain := by
  have habort := loopAbort 1000 0 0
  have htrue : (simplifyW capChain).2 = true := by
    show (simplifyLoop 1000 (.uni (lseq 0) (seqR 2 1002))).2 = true
    rw [show (2:Nat) = 0 + 2 from rfl, show (1002:Nat) = 0 + 1000 + 2 from rfl, habort]
  exact ⟨htrue, ((simplify_cap_behavior capChain).2.1 htrue).1⟩

/-- Claim C7 (amended): `simplify` is idempotent on every term whose
simplification reaches a genuine fixed point of `simplifyOnce` within the
iteration cap; terms that exhaust the cap (see `capChain_not_idem`) are
excluded. -/
theorem simplify_idem_of_fixpoint (t : Term)
    (h : simplifyOnce (simplify t) = simplify t) :
    simplify (simplify t) = simplify t := by
  show (simplifyLoop 1000 (simplify t)).1 = simplify t
  rw [simplifyLoop.eq_def]
  simp [h]

/-- Witness for the amended C7 at the concrete term `1 + ∅`. -/
theorem simplify_idem_witness :
    simplifyOnce (simplify (.uni (.num 1) (.num 0))) =
        simplify (.uni (.num 1) (.num 0)) ∧
      simplify (simplify (.uni (.num 1) (.num 0))) =
        simplify (.uni (.num 1) (.num 0)) := by
  have h : simplifyOnce (simplify (.uni (.num 1) (.num 0))) =
      simplify (.uni (.num 1) (.num 0)) := by decide
  exact ⟨h, simplify_idem_of_fixpoint _ h⟩

end Rw

/-! ### Parser lemmas -/

namespace Par

theorem errReported_trans {toks₁ toks₂ : List String} {m : ParseMsg} {rest : List String}
    (h : errReported toks₁ m rest) (hsub : toks₁ <:+ toks₂) :
    errReported toks₂ m rest :=
  ⟨h.1, h.2.1, h.2.2.1.trans hsub, h.2.2.2.1, h.2.2.2.2⟩

theorem atom_good (f : Nat)
    (ihR : ∀ toks, 5 * toks.length + 4 ≤ f → goodStrict toks (parseRegExpF f toks)) :
    ∀ toks, 5 * toks.length + 1 ≤ f + 1 → goodStrict toks (parseAtomF (f + 1) toks) := by
  intro toks hf
  match toks with
  | [] => simp [parseAtomF, goodStrict, errReported]
  | t :: rest =>
    rw [parseAtomF]
    by_cases h1 : t = "("
    · subst h1
      simp only [reduceIte]
      have hR := ihR rest (by simp at hf ⊢; omega)
      match hres : parseRegExpF f rest with
      | .ok (expr, afterExpr) =>
        rw [hres] at hR
        obtain ⟨hsub, hlen⟩ := hR
        have hsub2 : afterExpr <:+ "(" :: rest := hsub.trans (List.suffix_cons "(" rest)
        rcases afterExpr with _ | ⟨t₂, tl⟩
        · exact ⟨by simp [errReported], by simp [errReported], hsub2, by simp, by simp⟩
        · show goodStrict ("(" :: rest)
            (match t₂ :: tl with
              | ")" :: tl => (Except.ok (expr, tl) : Except PErr (RE × List String))
              | x => Except.error (ParseMsg.expectedClose, t₂ :: tl))
          by_cases hcl : t₂ = ")"
          · subst hcl
            refine ⟨?_, ?_⟩
            · exact (List.suffix_cons ")" tl).trans hsub2
            · have := hsub.length_le
              simp at this ⊢
              omega
          · have hmatch : (match t₂ :: tl with
                | ")" :: tl => (Except.ok (expr, tl) : Except PErr (RE × List String))
                | x => Except.error (ParseMsg.expectedClose, t₂ :: tl)) =
                Except.error (ParseMsg.expectedClose, t₂ :: tl) := by
              split
              · rename_i heq
                rw [List.cons.injEq] at heq
                exact absurd heq.1 hcl
              · rfl
            rw [hmatch]
            exact ⟨by simp [errReported], by simp [errReported], hsub2, by simp, by simp⟩
      | .error (m, erest) =>
        rw [hres] at hR
        exact errReported_trans hR (List.suffix_cons "(" rest)
    · by_cases h2 : t = "∅"
      · simp [h1, h2, goodStrict]
      · by_cases h3 : t = "ε"
        · simp [h1, h2, h3, goodStrict]
        · by_cases h4 : isLetterTok t
          · simp [h1, h2, h3, h4, goodStrict]
          · simp [h1, h2, h3, h4, goodStrict, errReported]

theorem factor_good (f : Nat)
    (ihA : ∀ toks, 5 * toks.length + 1 ≤ f → goodStrict toks (parseAtomF f toks)) :
    ∀ toks, 5 * toks.length + 2 ≤ f + 1 → goodStrict toks (parseFactorF (f + 1) toks) := by
  intro toks hf
  rw [parseFactorF]
  have hA := ihA toks (by omega)
  match hres : parseAtomF f toks with
  | .ok (atom, arest) =>
    rw [hres] at hA
    obtain ⟨hsub, hlen⟩ := hA
    rcases arest with _ | ⟨t₂, tl⟩
    · exact ⟨hsub, hlen⟩

    · show goodStrict toks
        (match Except.ok (atom, t₂ :: tl) with
          | .ok (atom, "*" :: tl) => (Except.ok (RE.star atom, tl) : Except PErr (RE × List String))
          | .ok (atom, rest) => .ok (atom, rest)
          | .error e => .error e)
      by_cases hst : t₂ = "*"
      · subst hst
        exact ⟨((List.suffix_cons "*" tl).trans hsub),
          by have := hsub.length_le; simp at this ⊢; omega⟩
      · have hmatch : (match Except.ok (atom, t₂ :: tl) with
            | .ok (atom, "*" :: tl) => (Except.ok (RE.star atom, tl) : Except PErr (RE × List String))
            | .ok (atom, rest) => .ok (atom, rest)
            | .error e => .error e) = .ok (atom, t₂ :: tl) := by
          split
          · rename_i heq
            rw [Except.ok.injEq, Prod.mk.injEq, List.cons.injEq] at heq
            exact absurd heq.2.1 hst
          · rename_i heq
            rw [Except.ok.injEq] at heq
            rw [← heq]
          · rename_i heq
            exact Except.noConfusion heq
        rw [hmatch]
        exact ⟨hsub, hlen⟩
  | .error (m, erest) =>
    rw [hres] at hA
    exact hA


theorem productLoop_good (f : Nat)
    (ihF : ∀ toks, 5 * toks.length + 2 ≤ f → goodStrict toks (parseFactorF f toks))
    (ihPL : ∀ acc toks, 5 * toks.length + 3 ≤ f → goodLax toks (parseProductLoopF f acc toks)) :
    ∀ acc toks, 5 * toks.length + 3 ≤ f + 1 →
      goodLax toks (parseProductLoopF (f + 1) acc toks) := by
  intro acc toks hf
  match toks with
  | [] => exact ⟨List.nil_suffix, by simp⟩
  | t :: rest =>
    rw [parseProductLoopF]
    by_cases hstart : isAtomStart t
    · simp only [hstart, reduceIte]
      have hF := ihF (t :: rest) (by simp at hf ⊢; omega)
      match hres : parseFactorF f (t :: rest) with
      | .ok (right, rightRest) =>
        rw [hres] at hF
        obtain ⟨hsub, hlen⟩ := hF
        show goodLax (t :: rest) (parseProductLoopF f (.concat acc right) rightRest)
        have hrec := ihPL (.concat acc right) rightRest
          (by simp at hf; have := hsub.length_le; simp at hlen; omega)
        match hres2 : parseProductLoopF f (.concat acc right) rightRest with
        | .ok (res, rest2) =>
          rw [hres2] at hrec
          exact ⟨hrec.1.trans hsub, by have h1 := hrec.2; have h2 := hlen; simp at h2 ⊢; omega⟩
        | .error (m, erest) =>
          rw [hres2] at hrec
          exact errReported_trans hrec hsub
      | .error (m, erest) =>
        rw [hres] at hF
        show goodLax (t :: rest) (.error (m, erest))
        exact hF
    · simp only [hstart, reduceIte]
      exact ⟨List.suffix_refl _, le_refl _⟩

theorem product_good (f : Nat)
    (ihF : ∀ toks, 5 * toks.length + 2 ≤ f → goodStrict toks (parseFactorF f toks))
    (ihPL : ∀ acc toks, 5 * toks.length + 3 ≤ f → goodLax toks (parseProductLoopF f acc toks)) :
    ∀ toks, 5 * toks.length + 3 ≤ f + 1 → goodStrict toks (parseProductF (f + 1) toks) := by
  intro toks hf
  rw [parseProductF]
  have hF := ihF toks (by omega)
  match hres : parseFactorF f toks with
  | .ok (result, rest) =>
    rw [hres] at hF
    obtain ⟨hsub, hlen⟩ := hF
    show goodStrict toks (parseProductLoopF f result rest)
    have hrec := ihPL result rest (by have := hsub.length_le; omega)
    match hres2 : parseProductLoopF f result rest with
    | .ok (res, rest2) =>
      rw [hres2] at hrec
      exact ⟨hrec.1.trans hsub, by have := hrec.2; omega⟩
    | .error (m, erest) =>
      rw [hres2] at hrec
      exact errReported_trans hrec hsub
  | .error (m, erest) =>
    rw [hres] at hF
    show goodStrict toks (.error (m, erest))
    exact hF

theorem regExpLoop_good (f : Nat)
    (ihP : ∀ toks, 5 * toks.length + 3 ≤ f → goodStrict toks (parseProductF f toks))
    (ihRL : ∀ acc toks, 5 * toks.length + 4 ≤ f → goodLax toks (parseRegExpLoopF f acc toks)) :
    ∀ acc toks, 5 * toks.length + 4 ≤ f + 1 →
      goodLax toks (parseRegExpLoopF (f + 1) acc toks) := by
  intro acc toks hf
  match toks with
  | [] => exact ⟨List.nil_suffix, by simp⟩
  | t :: rest =>
    by_cases hplus : t = "+"
    · subst hplus
      rw [parseRegExpLoopF]
      have hP := ihP rest (by simp at hf ⊢; omega)
      match hres : parseProductF f rest with
      | .ok (right, rightRest) =>
        rw [hres] at hP
        obtain ⟨hsub, hlen⟩ := hP
        show goodLax ("+" :: rest) (parseRegExpLoopF f (.union acc right) rightRest)
        have hrec := ihRL (.union acc right) rightRest
          (by simp at hf; have := hsub.length_le; omega)
        match hres2 : parseRegExpLoopF f (.union acc right) rightRest with
        | .ok (res, rest2) =>
          rw [hres2] at hrec
          have hs2 : rightRest <:+ "+" :: rest := hsub.trans (List.suffix_cons "+" rest)
          exact ⟨hrec.1.trans hs2, by have := hrec.2; simp at hf ⊢; omega⟩
        | .error (m, erest) =>
          rw [hres2] at hrec
          exact errReported_trans hrec (hsub.trans (List.suffix_cons "+" rest))
      | .error (m, erest) =>
        rw [hres] at hP
        show goodLax ("+" :: rest) (.error (m, erest))
        exact errReported_trans hP (List.suffix_cons "+" rest)
    · have hmatch : parseRegExpLoopF (f + 1) acc (t :: rest) = .ok (acc, t :: rest) := by
        rw [parseRegExpLoopF.eq_def]
        split
        · omega
        · rename_i heq
          rw [List.cons.injEq] at heq
          exact absurd heq.1 hplus
        · rfl
      rw [hmatch]
      exact ⟨List.suffix_refl _, le_refl _⟩

theorem regExp_good (f : Nat)
    (ihP : ∀ toks, 5 * toks.length + 3 ≤ f → goodStrict toks (parseProductF f toks))
    (ihRL : ∀ acc toks, 5 * toks.length + 4 ≤ f → goodLax toks (parseRegExpLoopF f acc toks)) :
    ∀ toks, 5 * toks.length + 4 ≤ f + 1 → goodStrict toks (parseRegExpF (f + 1) toks) := by
  intro toks hf
  rw [parseRegExpF]
  have hP := ihP toks (by omega)
  match hres : parseProductF f toks with
  | .ok (result, rest) =>
    rw [hres] at hP
    obtain ⟨hsub, hlen⟩ := hP
    show goodStrict toks (parseRegExpLoopF f result rest)
    have hrec := ihRL result rest (by have := hsub.length_le; omega)
    match hres2 : parseRegExpLoopF f result rest with
    | .ok (res, rest2) =>
      rw [hres2] at hrec
      exact ⟨hrec.1.trans hsub, by have := hrec.2; omega⟩
    | .error (m, erest) =>
      rw [hres2] at hrec
      exact errReported_trans hrec hsub
  | .error (m, erest) =>
    rw [hres] at hP
    show goodStrict toks (.error (m, erest))
    exact hP

theorem parser_good : ∀ f : Nat,
    (∀ toks, 5 * toks.length + 1 ≤ f → goodStrict toks (parseAtomF f toks)) ∧
    (∀ toks, 5 * toks.length + 2 ≤ f → goodStrict toks (parseFactorF f toks)) ∧
    (∀ acc toks, 5 * toks.length + 3 ≤ f → goodLax toks (parseProductLoopF f acc toks)) ∧
    (∀ toks, 5 * toks.length + 3 ≤ f → goodStrict toks (parseProductF f toks)) ∧
    (∀ acc toks, 5 * toks.length + 4 ≤ f → goodLax toks (parseRegExpLoopF f acc toks)) ∧
    (∀ toks, 5 * toks.length + 4 ≤ f → goodStrict toks (parseRegExpF f toks)) := by
  intro f
  induction f with
  | zero => refine ⟨?_, ?_, ?_, ?_, ?_, ?_⟩ <;> intros <;> omega
  | succ f ih =>
    obtain ⟨ihA, ihF, ihPL, ihP, ihRL, ihR⟩ := ih
    refine ⟨atom_good f ihR, factor_good f ihA, productLoop_good f ihF ihPL,
      product_good f ihF ihPL, regExpLoop_good f ihP ihRL, regExp_good f ihP ihRL⟩


/-- Claim C8: for every input string, `parse` either returns a complete AST
or fails with an error (it is a total function into `Except`, so no partial
AST can ever reach the caller); every error is one of the reported kinds
(never the fuel artifact of the embedding), carries the remaining
unconsumed token suffix, reports the offending token at the head of that
suffix (for an unexpected token, and for the unmatched-parenthesis and
trailing-token errors, whose suffix starts with the offending token), and
reports the empty remainder on unexpected end of input. -/
theorem parse_total_or_reported (s : String) :
    (∃ r, parse s = .ok r) ∨
    (∃ m rest, parse s = .error (m, rest) ∧ m ≠ .fuelOut ∧
      rest <:+ tokenize s ∧
      (m = .unexpectedEnd → rest = []) ∧
      (∀ t, m = .unexpectedToken t → rest.head? = some t) ∧
      (m = .trailingTokens → rest ≠ [])) := by
  have hR := (parser_good (5 * (tokenize s).length + 5)).2.2.2.2.2 (tokenize s) (by omega)
  rw [parse.eq_def]
  match hres : parseRegExpF (5 * (tokenize s).length + 5) (tokenize s) with
  | .ok (r, []) => exact Or.inl ⟨r, rfl⟩
  | .ok (r, t :: rest) =>
    rw [hres] at hR
    refine Or.inr ⟨.trailingTokens, t :: rest, rfl, by simp, hR.1, by simp, by simp, by simp⟩
  | .error (m, rest) =>
    rw [hres] at hR
    exact Or.inr ⟨m, rest, rfl, hR.1, hR.2.2.1, hR.2.2.2.1, hR.2.2.2.2,
      fun hm => absurd hm hR.2.1⟩


theorem tokenize_append (a b : String) :
    tokenize (a ++ b) = tokenize a ++ tokenize b := by
  simp [tokenize]

theorem tokenize_singleton {c : Char} (h : tokenChar c = true) :
    tokenize (String.singleton c) = [String.singleton c] := by
  show List.filterMap _ [c] = _
  simp [h]

theorem singleton_eq_iff {c d : Char} : String.singleton c = String.singleton d ↔ c = d := by
  constructor
  · intro h
    have := congrArg String.data h
    simpa [String.singleton] using this
  · intro h; rw [h]

theorem alpha_tokenChar {c : Char} (h : c.isAlpha = true) : tokenChar c = true := by
  simp [tokenChar, h]

theorem alpha_ne_lparen {c : Char} (h : c.isAlpha = true) : ¬(String.singleton c = "(") := by
  intro hh
  rw [show ("(" : String) = String.singleton '(' from rfl, singleton_eq_iff] at hh
  subst hh
  simp [Char.isAlpha, Char.isUpper, Char.isLower] at h

theorem alpha_ne_emptyTok {c : Char} (h : c.isAlpha = true) : ¬(String.singleton c = "∅") := by
  intro hh
  rw [show ("∅" : String) = String.singleton '∅' from rfl, singleton_eq_iff] at hh
  subst hh
  simp [Char.isAlpha, Char.isUpper, Char.isLower] at h

theorem alpha_ne_epsTok {c : Char} (h : c.isAlpha = true) : ¬(String.singleton c = "ε") := by
  intro hh
  rw [show ("ε" : String) = String.singleton 'ε' from rfl, singleton_eq_iff] at hh
  subst hh
  simp [Char.isAlpha, Char.isUpper, Char.isLower] at h

theorem alpha_ne_starTok {c : Char} (h : c.isAlpha = true) : ¬(String.singleton c = "*") := by
  intro hh
  rw [show ("*" : String) = String.singleton '*' from rfl, singleton_eq_iff] at hh
  subst hh
  simp [Char.isAlpha, Char.isUpper, Char.isLower] at h

theorem front_singleton (c : Char) : (String.singleton c).front = c := rfl

theorem length_singleton (c : Char) : (String.singleton c).length = 1 := rfl

theorem isLetterTok_singleton {c : Char} (h : c.isAlpha = true) :
    isLetterTok (String.singleton c) = true := by
  simp [isLetterTok, front_singleton, length_singleton, h]

theorem isAtomStart_singleton {c : Char} (h : c.isAlpha = true) :
    isAtomStart (String.singleton c) = true := by
  simp [isAtomStart, front_singleton, length_singleton, h]

theorem atom_letter (f : Nat) (hf : 1 ≤ f) (c : Char) (rest : List String)
    (h : c.isAlpha = true) :
    parseAtomF f (String.singleton c :: rest) = .ok (.charNode c, rest) := by
  obtain ⟨f₀, rfl⟩ : ∃ f₀, f = f₀ + 1 := ⟨f - 1, by omega⟩
  rw [parseAtomF]
  rw [if_neg (alpha_ne_lparen h), if_neg (alpha_ne_emptyTok h), if_neg (alpha_ne_epsTok h),
    if_pos (isLetterTok_singleton h), front_singleton]


theorem factor_letter (f : Nat) (hf : 2 ≤ f) (c : Char) (rest : List String)
    (h : c.isAlpha = true) (hrest : rest.head? ≠ some "*") :
    parseFactorF f (String.singleton c :: rest) = .ok (.charNode c, rest) := by
  obtain ⟨f₀, rfl⟩ : ∃ f₀, f = f₀ + 2 := ⟨f - 2, by omega⟩
  rw [parseFactorF, atom_letter (f₀ + 1) (by omega) c rest h]
  rcases rest with _ | ⟨t, tl⟩
  · rfl
  · simp only [List.head?] at hrest
    have ht : ¬(t = "*") := fun hh => hrest (by rw [hh])
    split
    · rename_i heq
      rw [Except.ok.injEq, Prod.mk.injEq, List.cons.injEq] at heq
      exact absurd heq.2.1 ht
    · rename_i heq
      rw [Except.ok.injEq] at heq
      rw [← heq]
    · rename_i heq
      exact Except.noConfusion heq

theorem product_letter (f : Nat) (hf : 3 ≤ f) (c : Char) (rest : List String)
    (h : c.isAlpha = true) (hstar : rest.head? ≠ some "*")
    (hstart : ∀ t, rest.head? = some t → isAtomStart t = false) :
    parseProductF f (String.singleton c :: rest) = .ok (.charNode c, rest) := by
  obtain ⟨f₀, rfl⟩ : ∃ f₀, f = f₀ + 3 := ⟨f - 3, by omega⟩
  rw [parseProductF, factor_letter (f₀ + 2) (by omega) c rest h hstar]
  rcases rest with _ | ⟨t, tl⟩
  · rfl
  · show parseProductLoopF (f₀ + 2) (RE.charNode c) (t :: tl) = _
    obtain ⟨f₁, hfe⟩ : ∃ f₁, f₀ + 2 = f₁ + 1 := ⟨f₀ + 1, rfl⟩
    rw [hfe, parseProductLoopF]
    rw [if_neg (by rw [hstart t rfl]; exact fun hh => Bool.noConfusion hh)]

theorem notAtomStart_plus : isAtomStart "+" = false := by decide

theorem notStar_plus : ¬(some "+" = some ("*" : String)) := by decide

theorem tailToks_head_safe (cs : List Char) :
    (tailToks cs).head? ≠ some "*" ∧
      (∀ t, (tailToks cs).head? = some t → isAtomStart t = false) := by
  cases cs with
  | nil => simp [tailToks]
  | cons d t =>
    refine ⟨by simp [tailToks], ?_⟩
    intro x hx
    simp [tailToks] at hx
    rw [← hx]
    decide

theorem unionLoop_folds : ∀ (cs : List Char) (f : Nat) (acc : RE),
    5 * (tailToks cs).length + 5 ≤ f → (∀ x ∈ cs, x.isAlpha = true) →
    parseRegExpLoopF f acc (tailToks cs) = .ok (foldUnion acc cs, []) := by
  intro cs
  induction cs with
  | nil =>
    intro f acc hf halpha
    obtain ⟨f₁, rfl⟩ : ∃ f₁, f = f₁ + 1 := ⟨f - 1, by omega⟩
    rfl
  | cons d t ih =>
    intro f acc hf halpha
    obtain ⟨f₁, rfl⟩ : ∃ f₁, f = f₁ + 1 := ⟨f - 1, by omega⟩
    show parseRegExpLoopF (f₁ + 1) acc ("+" :: String.singleton d :: tailToks t) = _
    rw [parseRegExpLoopF]
    rw [product_letter f₁ (by simp [tailToks] at hf; omega) d (tailToks t)
      (halpha d (by simp)) (tailToks_head_safe t).1 (tailToks_head_safe t).2]
    show parseRegExpLoopF f₁ (.union acc (.charNode d)) (tailToks t) = _
    rw [ih f₁ (.union acc (.charNode d)) (by simp [tailToks] at hf ⊢; omega)
      (fun x hx => halpha x (by simp [hx]))]
    rfl

theorem concatLoop_folds : ∀ (cs : List Char) (f : Nat) (acc : RE),
    5 * (letterToks cs).length + 5 ≤ f → (∀ x ∈ cs, x.isAlpha = true) →
    parseProductLoopF f acc (letterToks cs) = .ok (foldConcat acc cs, []) := by
  intro cs
  induction cs with
  | nil =>
    intro f acc hf halpha
    obtain ⟨f₁, rfl⟩ : ∃ f₁, f = f₁ + 1 := ⟨f - 1, by omega⟩
    rfl
  | cons d t ih =>
    intro f acc hf halpha
    obtain ⟨f₁, rfl⟩ : ∃ f₁, f = f₁ + 1 := ⟨f - 1, by omega⟩
    show parseProductLoopF (f₁ + 1) acc (String.singleton d :: letterToks t) = _
    have hd : d.isAlpha = true := halpha d (by simp)
    rw [parseProductLoopF]
    rw [if_pos (isAtomStart_singleton hd)]
    have hsafe : (letterToks t).head? ≠ some "*" := by
      cases t with
      | nil => simp [letterToks]
      | cons e u =>
        simp [letterToks]
        exact fun hh => alpha_ne_starTok (halpha e (by simp)) hh
    rw [factor_letter f₁ (by simp [letterToks] at hf; omega) d (letterToks t) hd hsafe]
    show parseProductLoopF f₁ (.concat acc (.charNode d)) (letterToks t) = _
    rw [ih f₁ (.concat acc (.charNode d)) (by simp [letterToks] at hf ⊢; omega)
      (fun x hx => halpha x (by simp [hx]))]
    rfl


theorem tokenize_unionStr : ∀ (cs : List Char) (c : Char), c.isAlpha = true →
    (∀ x ∈ cs, x.isAlpha = true) →
    tokenize (unionStr c cs) = String.singleton c :: tailToks cs := by
  intro cs
  induction cs with
  | nil => intro c hc _; exact tokenize_singleton (alpha_tokenChar hc)
  | cons d t ih =>
    intro c hc halpha
    show tokenize (String.singleton c ++ "+" ++ unionStr d t) = _
    rw [tokenize_append, tokenize_append, tokenize_singleton (alpha_tokenChar hc),
      ih d (halpha d (by simp)) (fun x hx => halpha x (by simp [hx]))]
    rfl

theorem tokenize_concatStr : ∀ (cs : List Char) (c : Char), c.isAlpha = true →
    (∀ x ∈ cs, x.isAlpha = true) →
    tokenize (concatStr c cs) = String.singleton c :: letterToks cs := by
  intro cs
  induction cs with
  | nil => intro c hc _; exact tokenize_singleton (alpha_tokenChar hc)
  | cons d t ih =>
    intro c hc halpha
    show tokenize (String.singleton c ++ concatStr d t) = _
    rw [tokenize_append, tokenize_singleton (alpha_tokenChar hc),
      ih d (halpha d (by simp)) (fun x hx => halpha x (by simp [hx]))]
    rfl

theorem parse_unionStr (c : Char) (cs : List Char) (hc : c.isAlpha = true)
    (hcs : ∀ x ∈ cs, x.isAlpha = true) :
    parse (unionStr c cs) = .ok (foldUnion (.charNode c) cs) := by
  rw [parse.eq_def, tokenize_unionStr cs c hc hcs]
  have hlen : (String.singleton c :: tailToks cs).length = (tailToks cs).length + 1 := by simp
  rw [hlen]
  obtain ⟨f₁, hfe⟩ : ∃ f₁, 5 * ((tailToks cs).length + 1) + 5 = f₁ + 1 :=
    ⟨5 * (tailToks cs).length + 9, by omega⟩
  rw [hfe, parseRegExpF]
  rw [product_letter f₁ (by omega) c (tailToks cs) hc
    (tailToks_head_safe cs).1 (tailToks_head_safe cs).2]
  show (match parseRegExpLoopF f₁ (.charNode c) (tailToks cs) with
    | .ok (x, t :: rest) => Except.error (ParseMsg.trailingTokens, t :: rest)
    | .ok (result, []) => .ok result
    | .error e => .error e) = _
  rw [unionLoop_folds cs f₁ (.charNode c) (by omega) hcs]

theorem parse_concatStr (c : Char) (cs : List Char) (hc : c.isAlpha = true)
    (hcs : ∀ x ∈ cs, x.isAlpha = true) :
    parse (concatStr c cs) = .ok (foldConcat (.charNode c) cs) := by
  rw [parse.eq_def, tokenize_concatStr cs c hc hcs]
  have hlen : (String.singleton c :: letterToks cs).length = (letterToks cs).length + 1 := by simp
  rw [hlen]
  obtain ⟨f₁, hfe⟩ : ∃ f₁, 5 * ((letterToks cs).length + 1) + 5 = f₁ + 1 + 1 :=
    ⟨5 * (letterToks cs).length + 8, by omega⟩
  rw [hfe, parseRegExpF, parseProductF]
  have hsafe : (letterToks cs).head? ≠ some "*" := by
    cases cs with
    | nil => simp [letterToks]
    | cons e u =>
      simp [letterToks]
      exact fun hh => alpha_ne_starTok (hcs e (by simp)) hh
  rw [factor_letter f₁ (by omega) c (letterToks cs) hc hsafe]
  show (match (match parseProductLoopF f₁ (.charNode c) (letterToks cs) with
      | .ok (result, rest) => parseRegExpLoopF (f₁ + 1) result rest
      | .error e => .error e) with
    | .ok (x, t :: rest) => Except.error (ParseMsg.trailingTokens, t :: rest)
    | .ok (result, []) => .ok result
    | .error e => .error e) = _
  rw [concatLoop_folds cs f₁ (.charNode c) (by omega) hcs]
  show (match parseRegExpLoopF (f₁ + 1) (foldConcat (.charNode c) cs) [] with
    | .ok (x, t :: rest) => Except.error (ParseMsg.trailingTokens, t :: rest)
    | .ok (result, []) => .ok result
    | .error e => .error e) = _
  rfl

/-- Claim C10: `parse` folds chained unions and chained concatenations
left-associatively: for every nonempty chain of letter operands,
`c₀+c₁+…+cₙ` parses to `Union(…Union(Union(c₀,c₁),c₂)…,cₙ)` (a left fold)
and `c₀c₁…cₙ` parses to the corresponding left fold of `Concat`.  In
particular `a+b+c` gives `Union(Union(a,b),c)` and `abc` gives
`Concat(Concat(a,b),c)`. -/
theorem parse_folds_left (c : Char) (cs : List Char) (hc : c.isAlpha = true)
    (hcs : ∀ x ∈ cs, x.isAlpha = true) :
    parse (unionStr c cs) = .ok (foldUnion (.charNode c) cs) ∧
    parse (concatStr c cs) = .ok (foldConcat (.charNode c) cs) :=
  ⟨parse_unionStr c cs hc hcs, parse_concatStr c cs hc hcs⟩

/-- Witness for C10 at the concrete strings of the claim. -/
theorem parse_folds_left_witness :
    parse "a+b+c" =
        .ok (.union (.union (.charNode 'a') (.charNode 'b')) (.charNode 'c')) ∧
    parse "abc" =
        .ok (.concat (.concat (.charNode 'a') (.charNode 'b')) (.charNode 'c')) := by
  have h := parse_folds_left 'a' ['b', 'c'] (by decide) (by decide)
  have e1 : unionStr 'a' ['b', 'c'] = "a+b+c" := by decide
  have e2 : concatStr 'a' ['b', 'c'] = "abc" := by decide
  rw [e1, e2] at h
  exact h

end Par


/-! ### Thompson construction lemmas -/

namespace Th

theorem toNFA_single_accept (Sigma : List Char) :
    ∀ (r : RE) (n : Nat), ∃ q, ((toNFA Sigma r n).1).A = [q] := by
  intro r
  induction r with
  | emptySet => intro n; exact ⟨n + 2, rfl⟩
  | epsilon => intro n; exact ⟨n + 2, rfl⟩
  | charNode c => intro n; exact ⟨n + 2, rfl⟩
  | star r ih =>
    intro n
    exact ⟨(toNFA Sigma r n).2 + 2, rfl⟩
  | concat l r ihl ihr =>
    intro n
    obtain ⟨q, hq⟩ := ihr (toNFA Sigma l n).2
    exact ⟨q, by simp [toNFA, catenate, hq]⟩
  | union l r ihl ihr =>
    intro n
    exact ⟨(toNFA Sigma r (toNFA Sigma l n).2).2 + 2, rfl⟩

/-- Claim C3: every NFA produced by `RegExp2NFA.toNFA` has exactly one
accepting state — and since every intermediate NFA built during the
compilation of `r` is `toNFA` of a subterm of `r` at some intermediate
counter value, the same holds for every intermediate automaton; moreover
each combinator maintains the invariant (`catenate` passes `f2`'s accepting
set through, `disjunction` and `kleene` install a fresh singleton). -/
theorem thompson_single_accept (Sigma : List Char) :
    (∀ (r : RE) (n : Nat), ((toNFA Sigma r n).1).A.length = 1) ∧
    (∀ f1 f2 : NFA, (catenate f1 f2).A = f2.A) ∧
    (∀ (f1 f2 : NFA) (n : Nat), ((disjunction f1 f2 n).1).A.length = 1) ∧
    (∀ (f : NFA) (n : Nat), ((kleene f n).1).A.length = 1) := by
  refine ⟨?_, fun f1 f2 => rfl, fun f1 f2 n => rfl, fun f n => rfl⟩
  intro r n
  obtain ⟨q, hq⟩ := toNFA_single_accept Sigma r n
  rw [hq]
  rfl

end Th


/-! ### Subset construction lemmas -/

theorem mapM_some_forall {α β : Type} {f : α → Option β} :
    ∀ {l : List α} {L : List β}, l.mapM f = some L → ∀ a ∈ l, ∃ b, f a = some b ∧ b ∈ L := by
  intro l
  induction l with
  | nil => intro L h a ha; exact absurd ha (List.not_mem_nil a)
  | cons x t ih =>
    intro L h a ha
    rw [List.mapM_cons] at h
    match hx : f x with
    | none => rw [hx] at h; simp at h
    | some b =>
      rw [hx] at h
      simp only [Option.bind_eq_bind, Option.some_bind] at h
      match ht : t.mapM f with
      | none => rw [ht] at h; simp at h
      | some bs =>
        rw [ht] at h
        simp at h
        rcases List.mem_cons.mp ha with rfl | hat
        · exact ⟨b, hx, by rw [← h]; simp⟩
        · obtain ⟨b₂, hb₂, hmem⟩ := ih ht a hat
          exact ⟨b₂, hb₂, by rw [← h]; simp [hmem]⟩

theorem mapM_some_rev {α β : Type} {f : α → Option β} :
    ∀ {l : List α} {L : List β}, l.mapM f = some L → ∀ b ∈ L, ∃ a ∈ l, f a = some b := by
  intro l
  induction l with
  | nil =>
    intro L h b hb
    rw [List.mapM_nil] at h
    have hL : L = [] := by
      have h2 := h
      simp only [pure, Option.some.injEq] at h2
      exact h2.symm
    rw [hL] at hb
    exact absurd hb (List.not_mem_nil b)
  | cons x t ih =>
    intro L h b hb
    rw [List.mapM_cons] at h
    match hx : f x with
    | none => rw [hx] at h; simp at h
    | some b₁ =>
      rw [hx] at h
      simp only [Option.bind_eq_bind, Option.some_bind] at h
      match ht : t.mapM f with
      | none => rw [ht] at h; simp at h
      | some bs =>
        rw [ht] at h
        simp at h
        rw [← h] at hb
        rcases List.mem_cons.mp hb with rfl | hbt
        · exact ⟨x, by simp, hx⟩
        · obtain ⟨a, ha, hfa⟩ := ih ht b hbt
          exact ⟨a, by simp [ha], hfa⟩

theorem alGet_of_mem {κ α : Type} [DecidableEq κ] {l : List (κ × α)} {k : κ} {v : α}
    (hmem : (k, v) ∈ l) (huniq : ∀ p ∈ l, p.1 = k → p.2 = v) :
    alGet l k = some v := by
  induction l with
  | nil => exact absurd hmem (List.not_mem_nil _)
  | cons p t ih =>
    rw [alGet]
    by_cases hk : p.1 = k
    · have := huniq p (by simp) hk
      obtain ⟨p1, p2⟩ := p
      simp at hk this
      simp [hk, this]
    · obtain ⟨p1, p2⟩ := p
      simp at hk
      simp [hk]
      rcases List.mem_cons.mp hmem with heq | hmt
      · rw [Prod.mk.injEq] at heq
        exact absurd heq.1.symm hk
      · exact ih hmt (fun q hq hq1 => huniq q (by simp [hq]) hq1)

namespace Sub

theorem buildDelta_entries {states : List NSet} {Sigma : List Char}
    {delta : Th.TransRel} {fuel : Nat} {nd : List ((NSet × Char) × NSet)}
    (h : buildDelta states Sigma delta fuel = some nd) :
    (∀ M ∈ states, ∀ c ∈ Sigma, ∃ N, capitalDelta M c delta fuel = some N ∧
      ((M, c), N) ∈ nd) ∧
    (∀ p ∈ nd, capitalDelta p.1.1 p.1.2 delta fuel = some p.2) := by
  rw [buildDelta, Option.map_eq_some'] at h
  obtain ⟨rows, hmm, hflat⟩ := h
  constructor
  · intro M hM c hc
    obtain ⟨row, hrow, hrowmem⟩ := mapM_some_forall hmm M hM
    obtain ⟨x, hx, hxmem⟩ := mapM_some_forall hrow c hc
    rw [Option.map_eq_some'] at hx
    obtain ⟨N, hN, hxval⟩ := hx
    refine ⟨N, hN, ?_⟩
    rw [← hflat, List.mem_flatten]
    exact ⟨row, hrowmem, by rw [← hxval] at hxmem; exact hxmem⟩
  · intro p hp
    rw [← hflat, List.mem_flatten] at hp
    obtain ⟨row, hrowmem, hpmem⟩ := hp
    obtain ⟨M, hM, hrow⟩ := mapM_some_rev hmm row hrowmem
    obtain ⟨c, hc, hx⟩ := mapM_some_rev hrow p hpmem
    rw [Option.map_eq_some'] at hx
    obtain ⟨N, hN, hxval⟩ := hx
    rw [← hxval]
    exact hN

theorem nfa2dfa_parts {nfa : Th.NFA} {fuel : Nat} {d : DFA}
    (h : nfa2dfa nfa fuel = some d) :
    ∃ newStart newStates newDelta,
      epsClosure nfa.q0 nfa.delta fuel = some newStart ∧
      allStates newStart nfa.delta nfa.Sigma fuel = some newStates ∧
      buildDelta newStates nfa.Sigma nfa.delta fuel = some newDelta ∧
      d = { Q := newStates, Sigma := nfa.Sigma, delta := newDelta, q0 := newStart,
            A := newStates.filter (fun M => !(sInter M nfa.A).isEmpty) } := by
  rw [nfa2dfa, Option.bind_eq_some] at h
  obtain ⟨newStart, h1, h⟩ := h
  rw [Option.bind_eq_some] at h
  obtain ⟨newStates, h2, h⟩ := h
  rw [Option.map_eq_some'] at h
  obtain ⟨newDelta, h3, h⟩ := h
  exact ⟨newStart, newStates, newDelta, h1, h2, h3, h.symm⟩

/-- Claim C4 (amended): whenever the subset construction completes, its
transition table contains an entry for EVERY pair `(compositeState, symbol)`
in `Q × Σ`, namely `capitalDelta(M, c)` — including the pairs whose target
set is empty, which are stored with the empty composite state (itself a
state of the DFA, acting as the reject sink); no pair is omitted. -/
theorem nfa2dfa_table_total {nfa : Th.NFA} {fuel : Nat} {d : DFA}
    (h : nfa2dfa nfa fuel = some d) :
    ∀ M ∈ d.Q, ∀ c ∈ d.Sigma, ∃ N,
      alGet d.delta (M, c) = some N ∧
      capitalDelta M c nfa.delta fuel = some N := by
  obtain ⟨newStart, newStates, newDelta, h1, h2, h3, hd⟩ := nfa2dfa_parts h
  obtain ⟨hfwd, hall⟩ := buildDelta_entries h3
  intro M hM c hc
  rw [hd] at hM hc ⊢
  simp only at hM hc ⊢
  obtain ⟨N, hN, hmem⟩ := hfwd M hM c hc
  refine ⟨N, ?_, hN⟩
  refine alGet_of_mem hmem ?_
  intro p hp hpk
  have hv := hall p hp
  rw [hpk] at hv
  simp only at hv
  rw [hv] at hN
  simp at hN
  exact hN

/-- Claim C4 counterexample: on the Thompson NFA of `∅` over `{a}`, the
subset construction stores the entry `(({1}, a), ∅)` — a pair whose
computed target set is empty, and which the claim says must be absent
from the table. -/
theorem nfa2dfa_empty_target_present :
    (nfa2dfa nfaEmptyEx 10).map (fun d => alGet d.delta ([1], 'a')) =
      some (some []) := by rfl

/-- Witness for the amended C4 at the same concrete NFA. -/
theorem nfa2dfa_table_total_witness :
    ∃ d, nfa2dfa nfaEmptyEx 10 = some d ∧
      ∃ N, alGet d.delta ([1], 'a') = some N ∧
        capitalDelta [1] 'a' nfaEmptyEx.delta 10 = some N := by
  refine ⟨{ Q := [[1], []], Sigma := ['a'],
            delta := [(([1], 'a'), []), (([], 'a'), [])],
            q0 := [1], A := [] }, by rfl, ?_⟩
  exact nfa2dfa_table_total (by rfl) [1] (by simp) 'a' (by simp)

end Sub

/-! ### Product construction lemmas -/

theorem alGet_alSet {κ α : Type} [DecidableEq κ] (l : List (κ × α)) (k : κ) (v : α)
    (k0 : κ) :
    alGet (alSet l k v) k0 = if k = k0 then some v else alGet l k0 := by
  induction l with
  | nil => simp [alSet, alGet]
  | cons h t ih =>
    obtain ⟨k1, v1⟩ := h
    by_cases hk : k1 = k
    · subst hk
      by_cases hk0 : k1 = k0 <;> simp [alSet, alGet, hk0]
    · rw [alSet, if_neg hk, alGet]
      by_cases hk0 : k1 = k0
      · subst hk0
        rw [if_pos rfl]
        have : ¬(k = k1) := fun hcc => hk hcc.symm
        rw [if_neg this, alGet, if_pos rfl]
      · rw [if_neg hk0, ih, alGet, if_neg hk0]

namespace Eqv

theorem mem_cartesianProduct {α β : Type} (A : List α) (B : List β) (p : α × β) :
    p ∈ cartesianProduct A B ↔ p.1 ∈ A ∧ p.2 ∈ B := by
  obtain ⟨a, b⟩ := p
  simp only [cartesianProduct, List.mem_flatten, List.mem_map]
  constructor
  · rintro ⟨l, ⟨x, hx, rfl⟩, hm⟩
    rcases List.mem_map.mp hm with ⟨y, hy, heq⟩
    rcases Prod.mk.injEq .. ▸ heq with h
    obtain ⟨h1, h2⟩ := Prod.mk.inj heq
    subst h1; subst h2
    exact ⟨hx, hy⟩
  · rintro ⟨ha, hb⟩
    exact ⟨B.map (fun y => (a, y)), ⟨a, ha, rfl⟩, List.mem_map.mpr ⟨b, hb, rfl⟩⟩

theorem prodDeltaRow_alGet (d1 d2 : List ((Nat × Char) × Nat)) (p : Nat × Nat)
    (cs : List Char) (acc : List (((Nat × Nat) × Char) × (Nat × Nat)))
    (q : Nat × Nat) (c : Char) :
    alGet (prodDeltaRow d1 d2 p acc cs) (q, c) =
      if q = p ∧ c ∈ cs ∧ (prodVal d1 d2 p c).isSome
      then prodVal d1 d2 p c else alGet acc (q, c) := by
  induction cs generalizing acc with
  | nil => simp [prodDeltaRow]
  | cons c0 cs ih =>
    rw [prodDeltaRow]
    cases h1 : alGet d1 (p.1, c0) with
    | none =>
      rw [ih]
      by_cases hc : c = c0
      · subst hc
        have hv : prodVal d1 d2 p c = none := by rw [prodVal, h1]
        simp [hv]
      · simp [List.mem_cons, hc]
    | some n1 =>
      cases h2 : alGet d2 (p.2, c0) with
      | none =>
        rw [ih]
        by_cases hc : c = c0
        · subst hc
          have hv : prodVal d1 d2 p c = none := by rw [prodVal, h1, h2]
          simp [hv]
        · simp [List.mem_cons, hc]
      | some n2 =>
        rw [ih, alGet_alSet]
        have hv0 : prodVal d1 d2 p c0 = some (n1, n2) := by rw [prodVal, h1, h2]
        by_cases hq : q = p
        · subst hq
          by_cases hc : c = c0
          · subst hc
            by_cases hcs : c ∈ cs
            · simp [hcs, hv0]
            · simp [hcs, hv0]
          · have hcc : ¬(c0 = c) := fun h => hc h.symm
            simp [List.mem_cons, hc, hcc]
        · have hpq : ¬(p = q) := fun h => hq h.symm
          simp [hq, hpq]

theorem prodDeltaAll_alGet (d1 d2 : List ((Nat × Char) × Nat)) (Sigma : List Char)
    (ps : List (Nat × Nat)) (acc : List (((Nat × Nat) × Char) × (Nat × Nat)))
    (q : Nat × Nat) (c : Char) :
    alGet (prodDeltaAll d1 d2 Sigma acc ps) (q, c) =
      if q ∈ ps ∧ c ∈ Sigma ∧ (prodVal d1 d2 q c).isSome
      then prodVal d1 d2 q c else alGet acc (q, c) := by
  induction ps generalizing acc with
  | nil => simp [prodDeltaAll]
  | cons p ps ih =>
    rw [prodDeltaAll, ih, prodDeltaRow_alGet]
    by_cases hq : q = p
    · subst hq
      by_cases hin : q ∈ ps
      · simp [hin]
        intro h1 h2
        simp [h1, h2]
      · simp [hin, List.mem_cons]
    · simp [hq, List.mem_cons]

theorem totalOn_spec {Q : List Nat} {delta : List ((Nat × Char) × Nat)} {Sig : List Char}
    (h : totalOn Q delta Sig = true) {q : Nat} (hq : q ∈ Q) {c : Char} (hc : c ∈ Sig) :
    ∃ n, alGet delta (q, c) = some n ∧ n ∈ Q := by
  rw [totalOn, List.all_eq_true] at h
  have h2 := List.all_eq_true.mp (h q hq) c hc
  cases hn : alGet delta (q, c) with
  | none => rw [hn] at h2; exact absurd h2 (by simp)
  | some n =>
    rw [hn] at h2
    exact ⟨n, rfl, List.elem_iff.mp h2⟩

theorem fsmComplementRow_ok {d1 d2 : List ((Nat × Char) × Nat)} {p : Nat × Nat}
    {cs : List Char} {acc acc2 : List (((Nat × Nat) × Char) × (Nat × Nat))}
    (h : fsmComplementRow d1 d2 p acc cs = .ok acc2) :
    prodDeltaRow d1 d2 p acc cs = acc2 := by
  induction cs generalizing acc with
  | nil =>
    rw [fsmComplementRow] at h
    rw [prodDeltaRow]
    exact Except.ok.inj h
  | cons c0 cs ih =>
    rw [fsmComplementRow] at h
    rw [prodDeltaRow]
    cases h1 : alGet d1 (p.1, c0) with
    | none => rw [h1] at h; exact absurd h (by simp)
    | some n1 =>
      cases h2 : alGet d2 (p.2, c0) with
      | none => rw [h1, h2] at h; exact absurd h (by simp)
      | some n2 =>
        rw [h1, h2] at h
        exact ih h

theorem fsmComplementAll_ok {d1 d2 : List ((Nat × Char) × Nat)} {Sigma : List Char}
    {ps : List (Nat × Nat)} {acc acc2 : List (((Nat × Nat) × Char) × (Nat × Nat))}
    (h : fsmComplementAll d1 d2 Sigma acc ps = .ok acc2) :
    prodDeltaAll d1 d2 Sigma acc ps = acc2 := by
  induction ps generalizing acc with
  | nil =>
    rw [fsmComplementAll] at h
    rw [prodDeltaAll]
    exact Except.ok.inj h
  | cons p ps ih =>
    rw [fsmComplementAll] at h
    rw [prodDeltaAll]
    cases hr : fsmComplementRow d1 d2 p acc Sigma with
    | error e => rw [hr] at h; exact absurd h (by simp [Except.bind])
    | ok accR =>
      rw [hr] at h
      rw [fsmComplementRow_ok hr]
      exact ih h

theorem prod_accepts (F1 F2 : PDFA)
    (ht1 : totalOn F1.Q F1.delta F1.Sigma = true)
    (ht2 : totalOn F2.Q F2.delta F1.Sigma = true) :
    ∀ (w : List Char) (p1 p2 : Nat), p1 ∈ F1.Q → p2 ∈ F2.Q →
      (∀ c ∈ w, c ∈ F1.Sigma) →
      acceptsProdFrom (fsm_complement F1 F2).delta (fsm_complement F1 F2).F (p1, p2) w =
        (acceptsPFrom F1.delta F1.F p1 w && !acceptsPFrom F2.delta F2.F p2 w) := by
  intro w
  induction w with
  | nil =>
    intro p1 p2 hp1 hp2 _
    rw [acceptsProdFrom, acceptsPFrom, acceptsPFrom]
    have hmem : (p1, p2) ∈ (fsm_complement F1 F2).F ↔
        p1 ∈ F1.F ∧ p2 ∈ F2.Q ∧ p2 ∉ F2.F := by
      show (p1, p2) ∈ cartesianProduct F1.F (F2.Q.filter (fun s => !F2.F.contains s)) ↔ _
      rw [mem_cartesianProduct]
      simp [List.mem_filter, and_assoc]
    by_cases h1 : p1 ∈ F1.F
    · by_cases h2 : p2 ∈ F2.F
      · have : (p1, p2) ∉ (fsm_complement F1 F2).F := fun hm => (hmem.mp hm).2.2 h2
        simp [List.elem_iff, this, h1, h2]
      · have : (p1, p2) ∈ (fsm_complement F1 F2).F := hmem.mpr ⟨h1, hp2, h2⟩
        simp [List.elem_iff, this, h1, h2]
    · have : (p1, p2) ∉ (fsm_complement F1 F2).F := fun hm => h1 (hmem.mp hm).1
      simp [List.elem_iff, this, h1]
  | cons c w ih =>
    intro p1 p2 hp1 hp2 hw
    have hc : c ∈ F1.Sigma := hw c (List.mem_cons_self c w)
    obtain ⟨n1, hn1, hn1Q⟩ := totalOn_spec ht1 hp1 hc
    obtain ⟨n2, hn2, hn2Q⟩ := totalOn_spec ht2 hp2 hc
    have hval : prodVal F1.delta F2.delta (p1, p2) c = some (n1, n2) := by
      rw [prodVal]
      show (match alGet F1.delta (p1, c), alGet F2.delta (p2, c) with
        | some n1, some n2 => some (n1, n2)
        | _, _ => none) = _
      rw [hn1, hn2]
    have hdel : alGet (fsm_complement F1 F2).delta ((p1, p2), c) = some (n1, n2) := by
      show alGet (prodDeltaAll F1.delta F2.delta F1.Sigma []
        (cartesianProduct F1.Q F2.Q)) ((p1, p2), c) = _
      rw [prodDeltaAll_alGet]
      rw [if_pos ⟨(mem_cartesianProduct _ _ _).mpr ⟨hp1, hp2⟩, hc, by rw [hval]; rfl⟩]
      exact hval
    rw [acceptsProdFrom, acceptsPFrom, acceptsPFrom, hdel, hn1, hn2]
    exact ih n1 n2 hn1Q hn2Q (fun c2 hc2 => hw c2 (List.mem_cons_of_mem c hc2))

/-- C5: the product construction, amended.  For arbitrary component DFAs —
total or not — `fsm_complement` (the `RecursiveSet` variant) returns the
product automaton: states `Q1 × Q2`, start `(q01, q02)`, accepting exactly
`A1 × (Q2 ∖ A2)`, and a componentwise transition stored for `(p, c)`
exactly when `p` is a product state, `c ∈ Σ1` and both component
transitions are defined — when either is missing the entry is absent, the
pair is skipped rather than an error raised.  Also unconditionally:
whenever the string-keyed `fsmComplement` returns at all it returns the
same automaton — but it throws on any missing component transition (see
the counterexample).  Finally, on total components the product recognizes
`L(F1) ∖ L(F2)` under the spec-§3 acceptance semantics (only this last
conjunct assumes totality). -/
theorem fsm_complement_spec (F1 F2 : PDFA) :
    (fsm_complement F1 F2).Q = cartesianProduct F1.Q F2.Q ∧
    (fsm_complement F1 F2).q0 = (F1.q0, F2.q0) ∧
    (∀ p : Nat × Nat, p ∈ (fsm_complement F1 F2).F ↔
      p.1 ∈ F1.F ∧ p.2 ∈ F2.Q ∧ p.2 ∉ F2.F) ∧
    (∀ (p : Nat × Nat) (c : Char),
      alGet (fsm_complement F1 F2).delta (p, c) =
        if p.1 ∈ F1.Q ∧ p.2 ∈ F2.Q ∧ c ∈ F1.Sigma
        then prodVal F1.delta F2.delta p c else none) ∧
    (∀ P, fsmComplement F1 F2 = .ok P → P = fsm_complement F1 F2) ∧
    (totalOn F1.Q F1.delta F1.Sigma = true →
      totalOn F2.Q F2.delta F1.Sigma = true →
      F1.q0 ∈ F1.Q → F2.q0 ∈ F2.Q →
      ∀ w : List Char, (∀ c ∈ w, c ∈ F1.Sigma) →
        acceptsProd (fsm_complement F1 F2) w = (acceptsP F1 w && !acceptsP F2 w)) := by
  refine ⟨rfl, rfl, ?_, ?_, ?_, ?_⟩
  · intro p
    show p ∈ cartesianProduct F1.F (F2.Q.filter (fun s => !F2.F.contains s)) ↔ _
    rw [mem_cartesianProduct]
    simp [List.mem_filter, and_assoc]
  · intro p c
    show alGet (prodDeltaAll F1.delta F2.delta F1.Sigma []
      (cartesianProduct F1.Q F2.Q)) (p, c) = _
    rw [prodDeltaAll_alGet]
    by_cases hmem : p ∈ cartesianProduct F1.Q F2.Q
    · have hm2 := (mem_cartesianProduct _ _ _).mp hmem
      by_cases hc : c ∈ F1.Sigma
      · cases hv : prodVal F1.delta F2.delta p c with
        | none => simp [hmem, hc, hv, hm2.1, hm2.2, alGet]
        | some v => simp [hmem, hc, hv, hm2.1, hm2.2]
      · simp [hc, alGet]
    · have hm2 : ¬(p.1 ∈ F1.Q ∧ p.2 ∈ F2.Q ∧ c ∈ F1.Sigma) := fun hh =>
        hmem ((mem_cartesianProduct _ _ _).mpr ⟨hh.1, hh.2.1⟩)
      simp [hmem, hm2, alGet]
  · intro P h
    rw [fsmComplement] at h
    cases hall : fsmComplementAll F1.delta F2.delta F1.Sigma []
        (cartesianProduct F1.Q F2.Q) with
    | error e =>
      rw [hall] at h
      exact absurd h (by simp [Except.map])
    | ok acc2 =>
      rw [hall] at h
      simp only [Except.map, Except.ok.injEq] at h
      rw [← h, fsm_complement, ← fsmComplementAll_ok hall]
  · intro ht1 ht2 hq1 hq2 w hw
    exact prod_accepts F1 F2 ht1 ht2 w F1.q0 F2.q0 hq1 hq2 hw

/-- C5 counterexample: the claim says no error is raised for a missing
component transition, but `fsmComplement` on a component DFA with an
empty transition table throws (`.error`) at the first pair and symbol. -/
theorem fsmComplement_raised_error :
    fsmComplement dfaNoTransEx dfaNoTransEx = .error ((0, 0), 'a') := rfl

/-- Witness for the amended C5.  The structural conjuncts and the
missing-transition table characterization are exercised on a PARTIAL
component DFA (`dfaNoTransEx`, whose one product state has no stored
transition at all), and the conditional difference-language conjunct is
discharged at two concrete total DFAs over `{a}`. -/
theorem fsm_complement_spec_witness :
    ((fsm_complement dfaNoTransEx dfaNoTransEx).Q =
        cartesianProduct dfaNoTransEx.Q dfaNoTransEx.Q ∧
     (fsm_complement dfaNoTransEx dfaNoTransEx).q0 =
        (dfaNoTransEx.q0, dfaNoTransEx.q0) ∧
     (∀ p : Nat × Nat, p ∈ (fsm_complement dfaNoTransEx dfaNoTransEx).F ↔
       p.1 ∈ dfaNoTransEx.F ∧ p.2 ∈ dfaNoTransEx.Q ∧ p.2 ∉ dfaNoTransEx.F) ∧
     (∀ (p : Nat × Nat) (c : Char),
       alGet (fsm_complement dfaNoTransEx dfaNoTransEx).delta (p, c) =
         if p.1 ∈ dfaNoTransEx.Q ∧ p.2 ∈ dfaNoTransEx.Q ∧ c ∈ dfaNoTransEx.Sigma
         then prodVal dfaNoTransEx.delta dfaNoTransEx.delta p c else none) ∧
     (∀ P, fsmComplement dfaNoTransEx dfaNoTransEx = .ok P →
       P = fsm_complement dfaNoTransEx dfaNoTransEx)) ∧
    (∀ w : List Char, (∀ c ∈ w, c ∈ dfaTotAEx.Sigma) →
      acceptsProd (fsm_complement dfaTotAEx dfaTotBEx) w =
        (acceptsP dfaTotAEx w && !acceptsP dfaTotBEx w)) :=
  have hpart := fsm_complement_spec dfaNoTransEx dfaNoTransEx
  ⟨⟨hpart.1, hpart.2.1, hpart.2.2.1, hpart.2.2.2.1, hpart.2.2.2.2.1⟩,
   (fsm_complement_spec dfaTotAEx dfaTotBEx).2.2.2.2.2 rfl rfl (by decide) (by decide)⟩

end Eqv

/-! ### Minimizer lemmas -/

namespace Min

/-- C2: the minimized automaton is not language-equivalent to its input.
On `dfaPartialEx` (a legal record per spec §3: `δ` partial, missing entries
meaning reject), the word `ba` is accepted by the input DFA but rejected by
`minimize`'s output: `separate` skips every state pair one of whose
component transitions is undefined, so the dead-end state 1 is never
separated from state 2, the classes overlap, and the class of the start
state loses the `b`-successor of state 0. -/
theorem minimize_changes_language :
    accepts dfaPartialEx ['b', 'a'] = true ∧
    (minimize dfaPartialEx 20).map (fun M => acceptsMin M ['b', 'a']) = some false :=
  ⟨rfl, rfl⟩

/-- The separable-pair set `minimize` computes on `dfaUnreachAccEx`
contains the pair `(0, 2)` although state 2 is not reachable: the
accepting set handed to `allSeparable` is the unrestricted input set. -/
theorem minSeparable_unreachable_accepting :
    (minSeparable dfaUnreachAccEx 10).map (fun S => S.contains (0, 2)) = some true ∧
    (reachable dfaUnreachAccEx.q0 dfaUnreachAccEx.Sigma dfaUnreachAccEx.delta 10).map
      (fun Q => Q.contains 2) = some false :=
  ⟨rfl, rfl⟩

/-- C6: `minimize` does restrict the state set to the reachable states
`Qr` — every equivalence class it builds consists of members of `Qr`, and
every accepting class is one of those classes — but the accepting set is
NOT restricted: `allSeparable` receives the input's accepting set `D.F`
verbatim, so the separable-pair computation operates on unreachable
accepting states too (see the counterexample). -/
theorem minimize_classes_reachable (D : SDFA) (fuel : Nat) (M : MinDFA)
    (h : minimize D fuel = some M) :
    ∃ Qr, reachable D.q0 D.Sigma D.delta fuel = some Qr ∧
      (∀ C ∈ M.Q, ∀ p ∈ C, p ∈ Qr) ∧
      (∀ C ∈ M.F, C ∈ M.Q) ∧
      minSeparable D fuel = allSeparable Qr D.F D.Sigma D.delta fuel := by
  rw [minimize] at h
  rcases Option.bind_eq_some.mp h with ⟨Qr, hQr, h2⟩
  rcases Option.bind_eq_some.mp h2 with ⟨Sep, hSep, h3⟩
  rcases Option.bind_eq_some.mp h3 with ⟨q0c, hq0c, h4⟩
  rcases Option.some.inj h4 with rfl
  refine ⟨Qr, hQr, ?_, ?_, ?_⟩
  · intro C hC p hp
    simp only [List.mem_filter, List.mem_map] at hC
    rcases hC with ⟨⟨q, hq, rfl⟩, _⟩
    exact (List.mem_filter.mp hp).1
  · intro C hC
    exact (List.mem_filter.mp hC).1
  · rw [minSeparable, hQr, Option.some_bind]

theorem minimize_classes_reachable_witness :
    ∃ Qr, reachable dfaUnreachAccEx.q0 dfaUnreachAccEx.Sigma dfaUnreachAccEx.delta 10 = some Qr ∧
      (∀ C ∈ (MinDFA.mk [[0]] ['a'] [(([0], 'a'), [0])] [0] []).Q, ∀ p ∈ C, p ∈ Qr) ∧
      (∀ C ∈ (MinDFA.mk [[0]] ['a'] [(([0], 'a'), [0])] [0] []).F,
        C ∈ (MinDFA.mk [[0]] ['a'] [(([0], 'a'), [0])] [0] []).Q) ∧
      minSeparable dfaUnreachAccEx 10 =
        allSeparable Qr dfaUnreachAccEx.F dfaUnreachAccEx.Sigma dfaUnreachAccEx.delta 10 :=
  minimize_classes_reachable dfaUnreachAccEx 10
    (MinDFA.mk [[0]] ['a'] [(([0], 'a'), [0])] [0] []) (by rfl)

end Min

/-! ### Round-trip pipeline: concrete instances -/

/-- The compiler round trip holds at `r = ∅` over `{a}`: compiling `∅` to
an NFA, determinizing, decompiling with `dfa2regexp` and checking
equivalence against `∅` returns `true` (fuel 1000 is ample). -/
theorem roundTrip_emptySet_holds : Rt.roundTrip .emptySet ['a'] 1000 = some true := by rfl

/-- The compiler round trip holds at `r = ε` over `{a}`. -/
theorem roundTrip_epsilon_holds : Rt.roundTrip .epsilon ['a'] 1000 = some true := by rfl

end FL
